import Mathlib

/-!
Verification development for the tcw3 `uicore` layout engine
(`src/tcw3/src/uicore/layout.rs`) and the DPI-scale-aware image cache
(`src/tcw3/src/ui/images/img.rs`).

Shallow embedding conventions:
* `f32` coordinates are modelled by exact rationals (`ℚ`); the algorithms
  under study only add, subtract and compare coordinates.
* Shared mutable view handles (`HView` with `Cell`/`RefCell` fields) are
  modelled by a purely functional tree: each operation takes a tree and
  returns the updated tree.
* The bitmask `ViewDirtyFlags` is modelled by a structure with one `Bool`
  field per flag; `ViewFlags` (hit-test flags) is modelled by a `Nat`
  bitmask since callers supply arbitrary flag combinations.
* Invocations of `ViewListener::position` are recorded in a ghost field
  `posRecv` of the view state.
-/

/-- 2-D vector / point with exact rational coordinates (models `cgmath`
`Vector2<f32>` / `Point2<f32>`). -/
structure Vec2 where
  x : ℚ
  y : ℚ
deriving DecidableEq, Repr

instance : Add Vec2 := ⟨fun a b => ⟨a.x + b.x, a.y + b.y⟩⟩

theorem Vec2.add_def (a b : Vec2) : a + b = ⟨a.x + b.x, a.y + b.y⟩ := rfl

/-- Axis-aligned box given by its `min`/`max` corners (models `cggeom::Box2<f32>`). -/
structure Box2 where
  bmin : Vec2
  bmax : Vec2
deriving DecidableEq, Repr

/-- `Box2::size` — the extent `max - min`. -/
def Box2.size (b : Box2) : Vec2 :=
  ⟨b.bmax.x - b.bmin.x, b.bmax.y - b.bmin.y⟩

/-- `Box2::translate` — shift both corners by a displacement. -/
def Box2.translate (b : Box2) (v : Vec2) : Box2 :=
  ⟨b.bmin + v, b.bmax + v⟩

/-- `Box2::contains_point` (models the point-in-box test used by hit testing). -/
def Box2.containsPoint (b : Box2) (p : Vec2) : Bool :=
  decide (b.bmin.x ≤ p.x) && decide (p.x ≤ b.bmax.x) &&
  decide (b.bmin.y ≤ p.y) && decide (p.y ≤ b.bmax.y)

/-- `SizeTraits` — minimum, maximum, and preferred sizes
(`uicore/layout.rs`, lines 98–104). -/
structure SizeTraits where
  min : Vec2
  max : Vec2
  preferred : Vec2
deriving DecidableEq, Repr

/-- Modelled from the spec: the dirty-flag bitmask `ViewDirtyFlags`
(declared in `uicore/mod.rs`, which is not under `src/`; spec §4.3 lists
exactly these six flags).  One `Bool` per bit. -/
structure DirtyFlags where
  sizeTraits : Bool
  descendantSizeTraits : Bool
  subviewsFrame : Bool
  descendantSubviewsFrame : Bool
  positionEvent : Bool
  descendantPositionEvent : Bool
deriving DecidableEq, Repr

/-- The empty dirty-flag set (`ViewDirtyFlags::empty()`). -/
def DirtyFlags.empty : DirtyFlags :=
  ⟨false, false, false, false, false, false⟩

/-- `ViewFlags` — hit-test related view flags; a caller-supplied bitmask,
modelled as a `Nat` of bits. -/
abbrev ViewFlags := Nat

/-- `ViewFlags::intersects` — the two bitmasks share a set bit. -/
def ViewFlags.intersects (a b : ViewFlags) : Bool :=
  decide (a &&& b ≠ 0)

/-- Modelled from the spec: the bit `ViewFlags::CLIP_HITTEST`
("clip hit-testing to bounds", spec §4.5); the concrete bit position is
declared in `uicore/mod.rs`, which is not under `src/`. -/
def ViewFlags.CLIP_HITTEST : ViewFlags := 1

/-- The per-view mutable state of `uicore`'s `View` structure: local frame,
cached global frame, cached size traits, dirty flags and hit-test flags.
`posRecv` is a ghost field recording that `ViewListener::position` was
invoked for this view during the pass under study. -/
structure ViewState where
  frame : Box2
  global_frame : Box2
  size_traits : SizeTraits
  dirty : DirtyFlags
  flags : ViewFlags
  posRecv : Bool
deriving DecidableEq, Repr

/-- `LayoutCtx::set_subview_frame` (`uicore/layout.rs`, lines 401–420).
Takes the dirty flags of the active view and the state of the subview
`hview`, returns the updated pair.

```
if frame.size() != hview.view.frame.get().size() {
    hview.set_dirty_flags(SUBVIEWS_FRAME);
    self.active_view.set_dirty_flags(DESCENDANT_SUBVIEWS_FRAME);
}
if frame != hview.view.frame.get() {
    hview.set_dirty_flags(POSITION_EVENT);
    self.active_view.set_dirty_flags(DESCENDANT_POSITION_EVENT);
}
hview.view.frame.set(frame);
```

`HView::set_dirty_flags` is declared in `uicore/mod.rs` (not under `src/`);
modelled from the spec as ORing the given bits into the view's `dirty`
bitmask (the comment at `layout.rs` lines 239–241 documents exactly this
effect).  Conditionally ORing a bit is rendered as a Bool disjunction with
the condition; the second comparison reads `hview.view.frame`, which the
first guard does not modify, so it compares against `sub.frame`. -/
def set_subview_frame (active : DirtyFlags) (sub : ViewState) (frame : Box2) :
    DirtyFlags × ViewState :=
  let szChanged : Bool := decide (frame.size ≠ sub.frame.size)
  let posChanged : Bool := decide (frame ≠ sub.frame)
  ({ active with
      descendantSubviewsFrame := active.descendantSubviewsFrame || szChanged
      descendantPositionEvent := active.descendantPositionEvent || posChanged },
   { sub with
      dirty := { sub.dirty with
        subviewsFrame := sub.dirty.subviewsFrame || szChanged
        positionEvent := sub.dirty.positionEvent || posChanged }
      frame := frame })

/-- Claim C2 sample active-view dirty flags: everything clean. -/
def d0 : DirtyFlags := DirtyFlags.empty

/-- Claim C2 sample subview state: frame `[0,0]–[1,1]`, no dirty bits. -/
def s0 : ViewState :=
  { frame := ⟨⟨0, 0⟩, ⟨1, 1⟩⟩
    global_frame := ⟨⟨0, 0⟩, ⟨1, 1⟩⟩
    size_traits := ⟨⟨0, 0⟩, ⟨100, 100⟩, ⟨0, 0⟩⟩
    dirty := DirtyFlags.empty
    flags := 0
    posRecv := false }

/-- Claim C2 sample new frame: same origin as `s0.frame`, different size. -/
def f0 : Box2 := ⟨⟨0, 0⟩, ⟨2, 2⟩⟩

/-- C2, counterexample: reframing a subview to a rectangle with the *same
origin* but a *different size* **does** set the subview's `POSITION_EVENT`
dirty flag (the code sets `POSITION_EVENT` whenever the frame rectangle
changed at all, `layout.rs` line 411), contradicting the claim that only
`SUBVIEWS_FRAME` is set. -/
theorem C2_counterexample :
    f0.bmin = s0.frame.bmin ∧ f0.size ≠ s0.frame.size ∧
    ((set_subview_frame d0 s0 f0).2.dirty.positionEvent = true) := by
  refine ⟨rfl, ?_, ?_⟩
  · norm_num [f0, s0, Box2.size]
  · norm_num [set_subview_frame, d0, s0, f0, DirtyFlags.empty]

/-- C2 (amended): if `Layout::arrange` re-assigns a subview frame with the
same origin but a different size, then the subview's `SUBVIEWS_FRAME` flag
is set (and `DESCENDANT_SUBVIEWS_FRAME` on the active view) **and**, because
the frame rectangle changed, the subview's `POSITION_EVENT` flag is also set
(and `DESCENDANT_POSITION_EVENT` on the active view). -/
theorem C2_amended_subview_frame_flags (active : DirtyFlags) (sub : ViewState)
    (frame : Box2) (hsz : frame.size ≠ sub.frame.size) :
    ((set_subview_frame active sub frame).2.dirty.subviewsFrame = true) ∧
    ((set_subview_frame active sub frame).1.descendantSubviewsFrame = true) ∧
    ((set_subview_frame active sub frame).2.dirty.positionEvent = true) ∧
    ((set_subview_frame active sub frame).1.descendantPositionEvent = true) := by
  have hne : frame ≠ sub.frame := by
    intro h; exact hsz (by rw [h])
  simp [set_subview_frame, hsz, hne]

/-- Witness for `C2_amended_subview_frame_flags` at the concrete
counterexample input. -/
theorem C2_amended_witness :
    ((set_subview_frame d0 s0 f0).2.dirty.subviewsFrame = true) ∧
    ((set_subview_frame d0 s0 f0).1.descendantSubviewsFrame = true) ∧
    ((set_subview_frame d0 s0 f0).2.dirty.positionEvent = true) ∧
    ((set_subview_frame d0 s0 f0).1.descendantPositionEvent = true) :=
  C2_amended_subview_frame_flags d0 s0 f0 (by norm_num [f0, s0, Box2.size])

/-- C10: re-assigning a subview frame equal to the current frame is a no-op:
no dirty flag is set on the subview or on the active view, and the subview's
state (frame included) is unchanged (`layout.rs` lines 401–420: both guard
conditions are false and `frame.set` stores the identical value). -/
theorem C10_set_subview_frame_same_noop (active : DirtyFlags) (sub : ViewState) :
    set_subview_frame active sub sub.frame = (active, sub) := by
  simp [set_subview_frame]

mutual
/-- A node of the `uicore` view tree: the view's mutable state, the
`Layout` capability installed on it (its `size_traits` function, its
`arrange` function — rendered as the sequence of `LayoutCtx` calls it makes
for a given size — and its fixed subview list), mirroring
`View { frame, global_frame, size_traits, dirty, layout, .. }`. -/
inductive View where
  | node (s : ViewState) (stFn : List SizeTraits → SizeTraits)
      (arrangeFn : Vec2 → Ops) (subs : Forest)

/-- The ordered subview sequence of a `Layout` (`Layout::subviews`). -/
inductive Forest where
  | nil
  | cons (v : View) (rest : Forest)

/-- The sequence of `LayoutCtx` calls a `Layout::arrange` implementation
performs: `set_subview_frame` on the subview at a given index of the
subview list, or `set_layout` requesting a layout replacement (a
"restart"), carrying the new layout's components. -/
inductive Ops where
  | nil
  | set_subview_frame (i : Nat) (frame : Box2) (rest : Ops)
  | set_layout (stFn : List SizeTraits → SizeTraits)
      (arrangeFn : Vec2 → Ops) (subs : Forest) (rest : Ops)
end

/-- The state stored at the root node of a view tree. -/
def View.state : View → ViewState
  | .node s _ _ _ => s

/-- The subview forest of a view. -/
def View.subs : View → Forest
  | .node _ _ _ subs => subs

/-- The states of the top-level views of a forest. -/
def Forest.states : Forest → List ViewState
  | .nil => []
  | .cons v rest => v.state :: Forest.states rest

/-- Replace the state at the root of a view. -/
def View.withState (s : ViewState) : View → View
  | .node _ stF aF subs => .node s stF aF subs

/-- Replace the top-level states of a forest (used to apply the
`set_subview_frame` effects recorded against the subview list). -/
def Forest.withStates : List ViewState → Forest → Forest
  | _, .nil => .nil
  | [], f => f
  | s :: ss, .cons v rest => .cons (v.withState s) (Forest.withStates ss rest)

/-- The replacement layout requested by `LayoutCtx::set_layout`:
`size_traits` function, `arrange` function and subview list of the new
`Layout` object. -/
abbrev NewLayout := (List SizeTraits → SizeTraits) × (Vec2 → Ops) × Forest

/-- Run the `LayoutCtx` calls of one `Layout::arrange` invocation over the
active view's dirty flags and the subviews' states
(`uicore/layout.rs` lines 242–246 together with lines 391–441):
`set_subview_frame` updates the indexed subview and the active view's
flags; `set_layout` stores the new layout in `LayoutCtx::new_layout`
(a later call overwrites an earlier one); the arrange continues either
way. -/
def applyOps : Ops → DirtyFlags → List ViewState → Option NewLayout →
    DirtyFlags × List ViewState × Option NewLayout
  | .nil, d, ss, nl => (d, ss, nl)
  | .set_subview_frame i f rest, d, ss, nl =>
    match ss.get? i with
    | none => applyOps rest d ss nl
    | some sv =>
      let r := set_subview_frame d sv f
      applyOps rest r.1 (ss.set i r.2) nl
  | .set_layout stF aF subs rest, d, ss, _ =>
    applyOps rest d ss (some (stF, aF, subs))

/-- Modelled from the spec: `HView::set_layout` (defined in
`uicore/mod.rs`, which is not under `src/`).  Spec §4.3: a restart
"installs the new `Layout`, and is equivalent to calling the public
'replace layout' entry point, which re-marks the appropriate ancestor
dirty flags as if the caller had done it externally"; spec §4.2/§4.3 make
`SIZE_TRAITS` and `SUBVIEWS_FRAME` the flags that make a view recompute
its size traits and re-run `arrange`.  The model installs the new layout
components, sets those two flags on the view; the ancestor re-marking is
reported to the caller by `update_subview_frames`'s `Bool` result. -/
def set_layout_model (nl : NewLayout) (v : View) : View :=
  match v with
  | .node s _ _ _ =>
    .node
      { s with dirty := { s.dirty with sizeTraits := true, subviewsFrame := true } }
      nl.1 nl.2.1 nl.2.2

/-- Does any top-level view of the forest carry `DESCENDANT_POSITION_EVENT`
(the flag collected by the propagation loop at `layout.rs` lines 267–277)? -/
def Forest.anyDescPos : Forest → Bool
  | .nil => false
  | .cons v rest => v.state.dirty.descendantPositionEvent || Forest.anyDescPos rest

mutual
/-- `HView::update_subview_frames` (`uicore/layout.rs` lines 228–278), the
*down phase*.  The extra `s : ViewState` argument carries the (possibly
already re-framed) state of this view, standing in for the shared handle's
current state; the `Bool` result records that a `set_layout` happened in
this subtree, whose ancestor re-marking (see `set_layout_model`) escapes
the subtree.

Steps, as in the source: if `SUBVIEWS_FRAME` is set, clear it and run
`Layout::arrange`; if the arrange requested a layout replacement, install
it through `set_layout_model` and return immediately.  Otherwise, if
`DESCENDANT_SUBVIEWS_FRAME` is set, clear it and recurse into every
subview.  Finally, if either flag was set on entry, OR every subview's
`DESCENDANT_POSITION_EVENT` bit into this view's flags. -/
def updateSubviewFrames (s : ViewState) : View → View × Bool
  | .node _ stF aF subs =>
    let d := s.dirty
    let mayPendPosition := d.subviewsFrame || d.descendantSubviewsFrame
    let arr :=
      if d.subviewsFrame then
        applyOps (aF s.frame.size) { d with subviewsFrame := false }
          subs.states none
      else (d, subs.states, none)
    match arr.2.2 with
    | some nl =>
      (set_layout_model nl
        (View.node { s with dirty := arr.1 } stF aF
          (Forest.withStates arr.2.1 subs)), true)
    | none =>
      let step2 :=
        if arr.1.descendantSubviewsFrame then
          let r := updateSubviewFramesF arr.2.1 subs
          ({ arr.1 with descendantSubviewsFrame := false }, r.1, r.2)
        else (arr.1, Forest.withStates arr.2.1 subs, false)
      -- Modelled from the spec: a restart in a descendant re-marks every
      -- ancestor (spec §4.3); reflected by ORing the descendant dirty
      -- flags set by `HView::set_layout`'s ancestor walk into this view.
      let d2 :=
        if step2.2.2 then
          { step2.1 with
              descendantSizeTraits := true
              descendantSubviewsFrame := true }
        else step2.1
      let d3 :=
        if mayPendPosition then
          { d2 with descendantPositionEvent :=
              d2.descendantPositionEvent || step2.2.1.anyDescPos }
        else d2
      (View.node { s with dirty := d3 } stF aF step2.2.1, step2.2.2)

/-- Recurse `updateSubviewFrames` into every view of a forest, supplying
each view's (possibly re-framed) state from the given list. -/
def updateSubviewFramesF : List ViewState → Forest → Forest × Bool
  | _, .nil => (.nil, false)
  | [], .cons v rest =>
    let r1 := updateSubviewFrames v.state v
    let r2 := updateSubviewFramesF [] rest
    (.cons r1.1 r2.1, r1.2 || r2.2)
  | s :: ss, .cons v rest =>
    let r1 := updateSubviewFrames s v
    let r2 := updateSubviewFramesF ss rest
    (.cons r1.1 r2.1, r1.2 || r2.2)
end

/-- Entry point of the down phase for a view (the caller reads the current
state out of the handle). -/
def update_subview_frames (v : View) : View × Bool :=
  updateSubviewFrames v.state v

/-- The second half of `HView::update_size_traits` (`uicore/layout.rs`
lines 200–215): if `SIZE_TRAITS` is set in the flags `d1` left by the
descendant step, clear it, recompute via `Layout::size_traits` — a function
of the subviews' current (post-recursion) `SizeTraits` — and report a
change only if the new value differs from the cached one.  `n1` is the
ghost count of `Layout::size_traits` invocations so far. -/
def ustSizeTraitsStep (s : ViewState) (stF : List SizeTraits → SizeTraits)
    (aF : Vec2 → Ops) (d1 : DirtyFlags) (subs1 : Forest) (n1 : Nat) :
    View × Bool × Nat :=
  if d1.sizeTraits then
    let newST := stF (subs1.states.map (fun t => t.size_traits))
    if newST ≠ s.size_traits then
      (View.node { s with dirty := { d1 with sizeTraits := false }
                          size_traits := newST } stF aF subs1, true, n1 + 1)
    else
      (View.node { s with dirty := { d1 with sizeTraits := false } }
         stF aF subs1, false, n1 + 1)
  else
    (View.node { s with dirty := d1 } stF aF subs1, false, n1)

mutual
/-- `HView::update_size_traits` (`uicore/layout.rs` lines 176–216), the
*up phase*.  Returns the updated view, whether `size_traits` changed, and
(ghost) how many times `Layout::size_traits` was invoked in the subtree.

As in the source: if `DESCENDANT_SIZE_TRAITS` is set, clear it, recurse
into every subview first, and set `SIZE_TRAITS` if any subview's traits
changed; then perform `ustSizeTraitsStep`. -/
def update_size_traits : View → View × Bool × Nat
  | .node s stF aF subs =>
    let d := s.dirty
    if d.descendantSizeTraits then
      let r := updateSizeTraitsF subs
      ustSizeTraitsStep s stF aF
        (if r.2.1 then
           { d with descendantSizeTraits := false, sizeTraits := true }
         else { d with descendantSizeTraits := false })
        r.1 r.2.2
    else
      ustSizeTraitsStep s stF aF d subs 0

/-- Recurse `update_size_traits` into every view of a forest, collecting
whether any subview's `size_traits` changed and the total number of
`Layout::size_traits` invocations. -/
def updateSizeTraitsF : Forest → Forest × Bool × Nat
  | .nil => (.nil, false, 0)
  | .cons v rest =>
    let r1 := update_size_traits v
    let r2 := updateSizeTraitsF rest
    (.cons r1.1 r2.1, r1.2.1 || r2.2.1, r1.2.2 + r2.2.2)
end

/-- `ustSizeTraitsStep` always leaves `SIZE_TRAITS` clear, and leaves
`DESCENDANT_SIZE_TRAITS` as the (clear) value handed to it. -/
theorem ustSizeTraitsStep_clear (s : ViewState)
    (stF : List SizeTraits → SizeTraits) (aF : Vec2 → Ops) (d1 : DirtyFlags)
    (subs1 : Forest) (n1 : Nat) (hd : d1.descendantSizeTraits = false) :
    (ustSizeTraitsStep s stF aF d1 subs1 n1).1.state.dirty.sizeTraits = false ∧
    (ustSizeTraitsStep s stF aF d1 subs1 n1).1.state.dirty.descendantSizeTraits
      = false := by
  by_cases h : d1.sizeTraits <;>
    by_cases hval :
        stF (subs1.states.map (fun t => t.size_traits)) = s.size_traits <;>
    simp [ustSizeTraitsStep, h, hval, hd, View.state]

/-- After one `update_size_traits` pass, the root's `SIZE_TRAITS` and
`DESCENDANT_SIZE_TRAITS` dirty bits are both clear. -/
theorem update_size_traits_root_clear (v : View) :
    (update_size_traits v).1.state.dirty.sizeTraits = false ∧
    (update_size_traits v).1.state.dirty.descendantSizeTraits = false := by
  match v with
  | .node s stF aF subs =>
    by_cases hd : s.dirty.descendantSizeTraits
    · by_cases hc : (updateSizeTraitsF subs).2.1 <;>
        · simp only [update_size_traits, hd, if_true, hc, Bool.false_eq_true,
            if_false]
          exact ustSizeTraitsStep_clear _ _ _ _ _ _ rfl
    · simp only [update_size_traits, hd, Bool.false_eq_true, if_false]
      exact ustSizeTraitsStep_clear _ _ _ _ _ _ (by simp [hd])

/-- A view whose root `SIZE_TRAITS` and `DESCENDANT_SIZE_TRAITS` bits are
clear is untouched by `update_size_traits`: it performs no recomputation
and reports no change. -/
theorem update_size_traits_clean (v : View)
    (h1 : v.state.dirty.sizeTraits = false)
    (h2 : v.state.dirty.descendantSizeTraits = false) :
    update_size_traits v = (v, false, 0) := by
  match v with
  | .node s stF aF subs =>
    simp only [View.state] at h1 h2
    simp [update_size_traits, ustSizeTraitsStep, h1, h2]

/-- C6: the up phase is idempotent.  Running `update_size_traits` a second
time immediately after a first run performs no `Layout::size_traits`
recomputation (ghost invocation count 0), returns `false`, and leaves the
whole tree — in particular every cached `SizeTraits` — exactly as the
first run left it; the root's `SIZE_TRAITS` and `DESCENDANT_SIZE_TRAITS`
bits are already clear after the first run. -/
theorem C6_update_size_traits_idempotent (v : View) :
    update_size_traits (update_size_traits v).1 =
      ((update_size_traits v).1, false, 0) ∧
    (update_size_traits v).1.state.dirty.sizeTraits = false ∧
    (update_size_traits v).1.state.dirty.descendantSizeTraits = false := by
  obtain ⟨h1, h2⟩ := update_size_traits_root_clear v
  exact ⟨update_size_traits_clean _ h1 h2, h1, h2⟩

/-- C8: if a `Layout::arrange` invocation performed during
`HView::update_subview_frames` calls `LayoutCtx::set_layout`, the current
arrange attempt for that view is aborted: the new layout is installed
through the same path as the public set-layout entry point
(`set_layout_model`, which re-marks the view and reports the ancestor
re-marking through the returned `true`), and `update_subview_frames`
returns immediately — performing neither the recursive descent for
`DESCENDANT_SUBVIEWS_FRAME` (the result's subviews are exactly the
subviews as left by the arrange calls, `Forest.withStates sts subs`) nor
the `DESCENDANT_POSITION_EVENT` propagation step (the result's flags are
exactly those left by the arrange calls, plus `set_layout`'s own marks). -/
theorem C8_arrange_restart (s : ViewState) (stF : List SizeTraits → SizeTraits)
    (aF : Vec2 → Ops) (subs : Forest) (nl : NewLayout)
    (d1 : DirtyFlags) (sts : List ViewState)
    (hsf : s.dirty.subviewsFrame = true)
    (harr : applyOps (aF s.frame.size) { s.dirty with subviewsFrame := false }
      subs.states none = (d1, sts, some nl)) :
    update_subview_frames (View.node s stF aF subs) =
      (set_layout_model nl
        (View.node { s with dirty := d1 } stF aF (Forest.withStates sts subs)),
       true) := by
  simp only [update_subview_frames, View.state, updateSubviewFrames, hsf,
    if_true, harr]

/-- Sample `size_traits` function for concrete examples. -/
def wStFn : List SizeTraits → SizeTraits := fun _ => ⟨⟨0, 0⟩, ⟨0, 0⟩, ⟨0, 0⟩⟩

/-- Arrange function of the replacement layout in the C8 example. -/
def wArrNil : Vec2 → Ops := fun _ => Ops.nil

/-- Arrange function that requests a layout replacement (C8 example). -/
def wArrRestart : Vec2 → Ops :=
  fun _ => Ops.set_layout wStFn wArrNil Forest.nil Ops.nil

/-- View state with `SUBVIEWS_FRAME` set (C8 example). -/
def wS8 : ViewState :=
  { s0 with dirty := { DirtyFlags.empty with subviewsFrame := true } }

/-- Witness for `C8_arrange_restart` at a concrete view whose arrange
requests a restart. -/
theorem C8_witness :
    update_subview_frames (View.node wS8 wStFn wArrRestart Forest.nil) =
      (set_layout_model (wStFn, wArrNil, Forest.nil)
        (View.node { wS8 with dirty := { wS8.dirty with subviewsFrame := false } }
          wStFn wArrRestart (Forest.withStates [] Forest.nil)),
       true) :=
  C8_arrange_restart wS8 wStFn wArrRestart Forest.nil (wStFn, wArrNil, Forest.nil)
    { wS8.dirty with subviewsFrame := false } [] rfl rfl

mutual
/-- The inner `traverse_all` of `HView::flush_position_event`
(`uicore/layout.rs` lines 289–303): unconditionally recompute
`global_frame` from the accumulated offset, clear `POSITION_EVENT` and
`DESCENDANT_POSITION_EVENT`, invoke the position callback (ghost flag
`posRecv`), and recurse into every subview with the updated global
origin. -/
def traverseAll (off : Vec2) : View → View
  | .node s stF aF subs =>
    let gf := s.frame.translate off
    View.node
      { s with global_frame := gf
               dirty := { s.dirty with positionEvent := false
                                       descendantPositionEvent := false }
               posRecv := true }
      stF aF (traverseAllF gf.bmin subs)

/-- `traverse_all` over a subview list. -/
def traverseAllF (off : Vec2) : Forest → Forest
  | .nil => .nil
  | .cons v rest => .cons (traverseAll off v) (traverseAllF off rest)

/-- The inner `traverse` of `HView::flush_position_event`
(`uicore/layout.rs` lines 305–333): if `POSITION_EVENT` is set, update
`global_frame`, clear both position flags, invoke the callback, and switch
to `traverse_all` for every descendant; else if
`DESCENDANT_POSITION_EVENT` is set, clear it and recurse selectively with
the (unchanged) cached global origin; otherwise do nothing. -/
def traversePos (off : Vec2) : View → View
  | .node s stF aF subs =>
    if s.dirty.positionEvent then
      let gf := s.frame.translate off
      View.node
        { s with global_frame := gf
                 dirty := { s.dirty with positionEvent := false
                                         descendantPositionEvent := false }
                 posRecv := true }
        stF aF (traverseAllF gf.bmin subs)
    else if s.dirty.descendantPositionEvent then
      View.node
        { s with dirty := { s.dirty with descendantPositionEvent := false } }
        stF aF (traversePosF s.global_frame.bmin subs)
    else
      View.node s stF aF subs

/-- `traverse` over a subview list. -/
def traversePosF (off : Vec2) : Forest → Forest
  | .nil => .nil
  | .cons v rest => .cons (traversePos off v) (traversePosF off rest)
end

/-- `HView::flush_position_event` (`uicore/layout.rs` lines 281–342):
run the selective traversal from this view with global offset `(0, 0)`. -/
def flush_position_event (v : View) : View :=
  traversePos ⟨0, 0⟩ v

mutual
/-- The global-frame coherence predicate of claim C1, on the tree produced
by a dispatch pass: every view whose position callback was invoked
(`posRecv`) has `global_frame` equal to its local `frame` translated by
the accumulated offset, which for the subviews is the parent's
`global_frame` origin. -/
def gokV (off : Vec2) : View → Bool
  | .node s _ _ subs =>
    (!s.posRecv || decide (s.global_frame = s.frame.translate off)) &&
      gokF s.global_frame.bmin subs

/-- `gokV` over a subview list. -/
def gokF (off : Vec2) : Forest → Bool
  | .nil => true
  | .cons v rest => gokV off v && gokF off rest
end

mutual
/-- No position callback recorded anywhere in the tree (the ghost flags'
initial state before a dispatch pass). -/
def cleanV : View → Bool
  | .node s _ _ subs => !s.posRecv && cleanF subs

/-- `cleanV` over a subview list. -/
def cleanF : Forest → Bool
  | .nil => true
  | .cons v rest => cleanV v && cleanF rest
end

mutual
/-- A tree with no recorded callbacks vacuously satisfies the coherence
predicate at any offset. -/
theorem gok_of_clean (off : Vec2) (v : View) (h : cleanV v = true) :
    gokV off v = true := by
  match v with
  | .node s stF aF subs =>
    simp only [cleanV, Bool.and_eq_true, Bool.not_eq_true'] at h
    simp only [gokV, Bool.and_eq_true, Bool.or_eq_true, Bool.not_eq_true',
      h.1, true_or]
    exact ⟨trivial, gokF_of_cleanF _ subs h.2⟩

/-- `gok_of_clean` over a subview list. -/
theorem gokF_of_cleanF (off : Vec2) (f : Forest) (h : cleanF f = true) :
    gokF off f = true := by
  match f with
  | .nil => rfl
  | .cons v rest =>
    simp only [cleanF, Bool.and_eq_true] at h
    simp only [gokF, Bool.and_eq_true]
    exact ⟨gok_of_clean off v h.1, gokF_of_cleanF off rest h.2⟩
end

mutual
/-- `traverse_all` establishes the coherence predicate at its offset. -/
theorem gok_traverseAll (off : Vec2) (v : View) :
    gokV off (traverseAll off v) = true := by
  match v with
  | .node s stF aF subs =>
    simp only [traverseAll, gokV, Bool.and_eq_true, Bool.or_eq_true]
    exact ⟨Or.inr (by simp), gok_traverseAllF _ subs⟩

/-- `gok_traverseAll` over a subview list. -/
theorem gok_traverseAllF (off : Vec2) (f : Forest) :
    gokF off (traverseAllF off f) = true := by
  match f with
  | .nil => rfl
  | .cons v rest =>
    simp only [traverseAllF, gokF, Bool.and_eq_true]
    exact ⟨gok_traverseAll off v, gok_traverseAllF off rest⟩
end

mutual
/-- `traverse` establishes the coherence predicate at its offset on any
tree with no previously recorded callbacks. -/
theorem gok_traversePos (off : Vec2) (v : View) (h : cleanV v = true) :
    gokV off (traversePos off v) = true := by
  match v with
  | .node s stF aF subs =>
    simp only [cleanV, Bool.and_eq_true, Bool.not_eq_true'] at h
    by_cases hp : s.dirty.positionEvent
    · simp only [traversePos, hp, if_true, gokV, Bool.and_eq_true, Bool.or_eq_true]
      exact ⟨Or.inr (by simp), gok_traverseAllF _ subs⟩
    · by_cases hdp : s.dirty.descendantPositionEvent
      · simp only [traversePos, hp, Bool.false_eq_true, if_false, hdp, if_true,
          gokV, Bool.and_eq_true, Bool.or_eq_true, Bool.not_eq_true']
        exact ⟨Or.inl h.1, gok_traversePosF _ subs h.2⟩
      · simp only [traversePos, hp, hdp, Bool.false_eq_true, if_false]
        exact gok_of_clean off _ (by
          simp only [cleanV, Bool.and_eq_true, Bool.not_eq_true']
          exact h)

/-- `gok_traverse` over a subview list. -/
theorem gok_traversePosF (off : Vec2) (f : Forest) (h : cleanF f = true) :
    gokF off (traversePosF off f) = true := by
  match f with
  | .nil => rfl
  | .cons v rest =>
    simp only [cleanF, Bool.and_eq_true] at h
    simp only [traversePosF, gokF, Bool.and_eq_true]
    exact ⟨gok_traversePos off v h.1, gok_traversePosF off rest h.2⟩
end

/-- C1: immediately after a position-dispatch pass
(`HView::flush_position_event`) over a tree whose ghost callback flags
start clear, every view the pass visited (invoked the position callback
on) has `global_frame` equal to its local `frame` translated by its
parent's resulting `global_frame` origin, composed up to the dispatch
root, which starts at offset `(0, 0)`. -/
theorem C1_flush_position_event_global_frames (v : View)
    (h : cleanV v = true) :
    gokV ⟨0, 0⟩ (flush_position_event v) = true :=
  gok_traversePos ⟨0, 0⟩ v h

/-- A concrete two-level tree for the C1 witness: root marked
`POSITION_EVENT`, one subview with a translated local frame. -/
def wV1 : View :=
  View.node { s0 with dirty := { DirtyFlags.empty with positionEvent := true } }
    wStFn wArrNil
    (Forest.cons
      (View.node { s0 with frame := ⟨⟨1, 1⟩, ⟨2, 2⟩⟩ } wStFn wArrNil Forest.nil)
      Forest.nil)

/-- Witness for `C1_flush_position_event_global_frames` at the concrete
tree `wV1`. -/
theorem C1_witness : gokV ⟨0, 0⟩ (flush_position_event wV1) = true :=
  C1_flush_position_event_global_frames wV1 rfl

mutual
/-- `HView::hit_test` (`uicore/layout.rs` lines 350–381): skip the subtree
when the view carries any `deny_flag` bit, or when it clips hit-testing to
bounds and the point is outside its `global_frame`; otherwise test
subviews first — in reverse subview order, short-circuiting at the first
match — and fall back to the view itself when the point is inside its
`global_frame` and it carries an `accept_flag` bit. -/
def hit_test (p : Vec2) (accept deny : ViewFlags) : View → Option View
  | .node s stF aF subs =>
    if s.flags.intersects deny then
      none
    else
      let hitLocal := s.global_frame.containsPoint p
      if s.flags.intersects ViewFlags.CLIP_HITTEST && !hitLocal then
        none
      else
        match hitTestF p accept deny subs with
        | some found => some found
        | none =>
          if hitLocal && s.flags.intersects accept then
            some (View.node s stF aF subs)
          else
            none

/-- Hit-test a subview list in *reverse* order (`.iter().rev()` in the
source): the rest of the list — the later, top-most subviews — is tried
before the head. -/
def hitTestF (p : Vec2) (accept deny : ViewFlags) : Forest → Option View
  | .nil => none
  | .cons v rest =>
    match hitTestF p accept deny rest with
    | some found => some found
    | none => hit_test p accept deny v
end

/-- C7: for a view with two overlapping sibling subviews (both leaves,
i.e. at the same depth) that both contain the test point in their
`global_frame` and both carry an `accept` bit, with neither carrying a
`deny` bit, and with the parent neither denied nor clipping the point
away, `hit_test` returns the sibling that appears *later* in the subview
list — subviews are tested depth-first in reverse child order and the
search short-circuits at the first match. -/
theorem C7_hit_test_later_sibling_wins (p : Vec2) (accept deny : ViewFlags)
    (sr sa sb : ViewState)
    (stF : List SizeTraits → SizeTraits) (aF : Vec2 → Ops)
    (hrDeny : sr.flags.intersects deny = false)
    (hrClip : sr.flags.intersects ViewFlags.CLIP_HITTEST = false ∨
      sr.global_frame.containsPoint p = true)
    (haDeny : sa.flags.intersects deny = false)
    (hbDeny : sb.flags.intersects deny = false)
    (haIn : sa.global_frame.containsPoint p = true)
    (hbIn : sb.global_frame.containsPoint p = true)
    (haAcc : sa.flags.intersects accept = true)
    (hbAcc : sb.flags.intersects accept = true) :
    hit_test p accept deny
      (View.node sr stF aF
        (Forest.cons (View.node sa stF aF Forest.nil)
          (Forest.cons (View.node sb stF aF Forest.nil) Forest.nil))) =
      some (View.node sb stF aF Forest.nil) := by
  have hclip : (sr.flags.intersects ViewFlags.CLIP_HITTEST &&
      !sr.global_frame.containsPoint p) = false := by
    rcases hrClip with h | h <;> simp [h]
  simp [hit_test, hitTestF, hrDeny, hclip, hbDeny, hbIn, hbAcc]

/-- C7 witness parent state: no flags, large global frame. -/
def wSr : ViewState := { s0 with global_frame := ⟨⟨0, 0⟩, ⟨4, 4⟩⟩, flags := 0 }

/-- C7 witness first (lower) sibling: accepts hits, frame `[0,0]–[2,2]`. -/
def wSa : ViewState := { s0 with global_frame := ⟨⟨0, 0⟩, ⟨2, 2⟩⟩, flags := 2 }

/-- C7 witness second (upper) sibling: accepts hits, frame `[1,1]–[3,3]`,
overlapping the first sibling. -/
def wSb : ViewState := { s0 with global_frame := ⟨⟨1, 1⟩, ⟨3, 3⟩⟩, flags := 2 }

/-- Witness for `C7_hit_test_later_sibling_wins`: the point `(1,1)` lies in
both siblings, and the later sibling is returned. -/
theorem C7_witness :
    hit_test ⟨1, 1⟩ 2 4
      (View.node wSr wStFn wArrNil
        (Forest.cons (View.node wSa wStFn wArrNil Forest.nil)
          (Forest.cons (View.node wSb wStFn wArrNil Forest.nil) Forest.nil))) =
      some (View.node wSb wStFn wArrNil Forest.nil) :=
  C7_hit_test_later_sibling_wins ⟨1, 1⟩ 2 4 wSr wSa wSb wStFn wArrNil
    rfl (Or.inl rfl) rfl rfl
    (by norm_num [Box2.containsPoint, wSa, s0])
    (by norm_num [Box2.containsPoint, wSb, s0])
    rfl rfl

/-- A validated DPI scale value, compared by bit pattern
(`img.rs` lines 418–441: `struct DpiScale(u32)`); the `u32` bit pattern is
modelled as a `Nat`. -/
structure DpiScale where
  bits : Nat
deriving DecidableEq, Repr

/-- A rasterized bitmap together with its actual DPI scale
(`pub type Bmp = (Bitmap, f32)`); the opaque reference-counted `Bitmap`
instance is modelled by a `Nat` identity, the actual-scale `f32` by its
bit pattern. -/
abbrev Bmp := Nat × Nat

/-- An `iterpool::Pool`: an allocator of stable pointers (`PoolPtr`,
modelled as `Nat`) to values.  `next` is the next fresh pointer. -/
structure Pool (α : Type) where
  next : Nat
  entries : List (Nat × α)
deriving Repr

/-- Look up a pool entry by pointer. -/
def Pool.find? {α : Type} (p : Pool α) (i : Nat) : Option α :=
  (p.entries.find? (fun e => e.1 = i)).map (fun e => e.2)

/-- `Pool::allocate`: store a value at a fresh pointer. -/
def Pool.allocate {α : Type} (p : Pool α) (a : α) : Nat × Pool α :=
  (p.next, ⟨p.next + 1, p.entries ++ [(p.next, a)]⟩)

/-- `Pool::deallocate`: remove the entry at a pointer. -/
def Pool.deallocate {α : Type} (p : Pool α) (i : Nat) : Pool α :=
  ⟨p.next, p.entries.filter (fun e => e.1 ≠ i)⟩

/-- Update the entry at a pointer. -/
def Pool.modify {α : Type} (p : Pool α) (i : Nat) (f : α → α) : Pool α :=
  ⟨p.next, p.entries.map (fun e => if e.1 = i then (e.1, f e.2) else e)⟩

/-- A known DPI scale (`img.rs` lines 217–228): scale value, reference
count, and the list of `CacheBmp` pointers linked by `link_dpi_scale`
(the circular intrusive list is modelled by its sequence of elements). -/
structure CacheDpiScale where
  dpi_scale : DpiScale
  ref_count : Nat
  bmps : List Nat
deriving DecidableEq, Repr

/-- `CacheImg` (`img.rs` lines 234–239): the list of `CacheBmp` pointers
associated with one image, linked by `link_img`. -/
structure CacheImg where
  bmps : List Nat
deriving DecidableEq, Repr

/-- `CacheBmp` (`img.rs` lines 241–251): owning image pointer, keyed DPI
scale and the bitmap; the two intrusive links are represented by
membership in the corresponding `bmps` lists. -/
structure CacheBmp where
  img : Nat
  dpi_scale : DpiScale
  bmp : Bmp
deriving DecidableEq, Repr

/-- The bitmap cache (`img.rs` lines 208–215). -/
structure Cache where
  imgs : Pool CacheImg
  bmps : Pool CacheBmp
  dpi_scales : List CacheDpiScale
deriving Repr

/-- The loop of `Cache::dpi_scale_add_ref` (`img.rs` lines 262–274):
increment the reference count of the first entry with this scale value,
or push a fresh entry with count 1. -/
def addRefList : List CacheDpiScale → DpiScale → List CacheDpiScale
  | [], s => [⟨s, 1, []⟩]
  | e :: rest, s =>
    if e.dpi_scale = s then { e with ref_count := e.ref_count + 1 } :: rest
    else e :: addRefList rest s

/-- `Cache::dpi_scale_add_ref`. -/
def Cache.dpi_scale_add_ref (c : Cache) (s : DpiScale) : Cache :=
  { c with dpi_scales := addRefList c.dpi_scales s }

/-- `Cache::dpi_scale_find` (`img.rs` lines 327–333): index of the first
`CacheDpiScale` with this scale value (`CacheDpiScalePtr`). -/
def Cache.dpi_scale_find (c : Cache) (s : DpiScale) : Option Nat :=
  c.dpi_scales.findIdx? (fun e => e.dpi_scale = s)

/-- One iteration of the destruction loop of `Cache::dpi_scale_release`
(`img.rs` lines 290–320): unlink the `CacheBmp` from its image's list and
deallocate it.  `none` models the panic on a dangling pointer. -/
def Cache.removeBmp (c : Cache) (ptr : Nat) : Option Cache :=
  match c.bmps.find? ptr with
  | none => none
  | some e =>
    match c.imgs.find? e.img with
    | none => none
    | some _ =>
      some { c with
        imgs := c.imgs.modify e.img
          (fun ci => { ci with bmps := ci.bmps.erase ptr })
        bmps := c.bmps.deallocate ptr }

/-- The destruction loop of `Cache::dpi_scale_release` over the scale's
bitmap list (iterating the circular intrusive list in link order). -/
def releaseLoop : Cache → List Nat → Option Cache
  | c, [] => some c
  | c, p :: ps =>
    match c.removeBmp p with
    | none => none
    | some c1 => releaseLoop c1 ps

/-- `Vec::swap_remove`: replace the element at `i` by the last element and
pop the last element. -/
def listSwapRemove {α : Type} (l : List α) (i : Nat) : List α :=
  match l.getLast? with
  | none => []
  | some last => (l.set i last).dropLast

/-- `Cache::dpi_scale_release` (`img.rs` lines 276–325): find the entry
(`none` models the "unknown DPI scale value" panic), decrement its
reference count; if it is still positive, stop; otherwise destroy every
`CacheBmp` in the scale's list (unlinking each from its image's list) and
`swap_remove` the `CacheDpiScale`. -/
def Cache.dpi_scale_release (c : Cache) (s : DpiScale) : Option Cache :=
  match c.dpi_scale_find s with
  | none => none
  | some i =>
    match c.dpi_scales.get? i with
    | none => none
    | some e =>
      if 0 < e.ref_count - 1 then
        some { c with
          dpi_scales := c.dpi_scales.set i { e with ref_count := e.ref_count - 1 } }
      else
        match releaseLoop c e.bmps with
        | none => none
        | some c1 =>
          some { c1 with dpi_scales := listSwapRemove c1.dpi_scales i }

/-- `Cache::img_add` (`img.rs` lines 335–339): allocate an empty
`CacheImg`. -/
def Cache.img_add (c : Cache) : Nat × Cache :=
  let r := c.imgs.allocate ⟨[]⟩
  (r.1, { c with imgs := r.2 })

/-- `Cache::img_find_bmp` (`img.rs` lines 383–391): walk the image's
bitmap list and return the bitmap of the first entry keyed by the given
scale. -/
def Cache.img_find_bmp (c : Cache) (img : Nat) (s : DpiScale) : Option Bmp :=
  match c.imgs.find? img with
  | none => none
  | some ci =>
    ((ci.bmps.filterMap (fun ptr => c.bmps.find? ptr)).find?
        (fun e => e.dpi_scale = s)).map (fun e => e.bmp)

/-- `Cache::img_add_bmp` (`img.rs` lines 393–415): allocate a `CacheBmp`
keyed by the image and the scale at index `scaleIdx`, and push it at the
back of both the scale's and the image's lists. -/
def Cache.img_add_bmp (c : Cache) (img : Nat) (scaleIdx : Nat) (bmp : Bmp) :
    Cache :=
  match c.dpi_scales.get? scaleIdx with
  | none => c
  | some sc =>
    let r := c.bmps.allocate ⟨img, sc.dpi_scale, bmp⟩
    { imgs := c.imgs.modify img (fun ci => { ci with bmps := ci.bmps ++ [r.1] })
      bmps := r.2
      dpi_scales := c.dpi_scales.set scaleIdx { sc with bmps := sc.bmps ++ [r.1] } }

/-- Well-formedness of the cache, the invariant the intrusive dual-indexed
structure maintains: pool keys and intrusive lists are duplicate-free,
scale entries are distinct with positive reference counts, every pointer
in a scale's (resp. image's) list denotes a live `CacheBmp` keyed by that
scale (resp. image), and every live `CacheBmp` appears in its image's and
its scale's lists. -/
def Cache.WF (c : Cache) : Prop :=
  (c.bmps.entries.map (fun e => e.1)).Nodup ∧
  (c.imgs.entries.map (fun e => e.1)).Nodup ∧
  (c.dpi_scales.map (fun e => e.dpi_scale)).Nodup ∧
  (∀ sc ∈ c.dpi_scales, 1 ≤ sc.ref_count ∧ sc.bmps.Nodup ∧
    ∀ p ∈ sc.bmps,
      (c.bmps.find? p).map (fun e => e.dpi_scale) = some sc.dpi_scale) ∧
  (∀ ie ∈ c.imgs.entries, ie.2.bmps.Nodup ∧
    ∀ p ∈ ie.2.bmps, (c.bmps.find? p).map (fun e => e.img) = some ie.1) ∧
  (∀ be ∈ c.bmps.entries,
    (be.1 ∈ (((c.imgs.find? be.2.img).map (fun ci => ci.bmps)).getD [])) ∧
    (∃ sc ∈ c.dpi_scales, sc.dpi_scale = be.2.dpi_scale ∧ be.1 ∈ sc.bmps))

theorem find?_key_filter {α : Type} (l : List (Nat × α)) (i j : Nat) (h : j ≠ i) :
    (l.filter (fun e => e.1 ≠ i)).find? (fun e => e.1 = j) =
      l.find? (fun e => e.1 = j) := by
  rw [List.find?_filter]
  have hp : (fun (e : Nat × α) => decide ((decide (e.1 ≠ i)) = true ∧
      (decide (e.1 = j)) = true)) = (fun (e : Nat × α) => decide (e.1 = j)) := by
    funext e
    by_cases hej : e.1 = j
    · have hei : ¬(e.1 = i) := by rw [hej]; exact h
      simp [hej, hei, h]
    · simp [hej]
  rw [hp]

theorem find?_key_filter_self {α : Type} (l : List (Nat × α)) (i : Nat) :
    (l.filter (fun e => e.1 ≠ i)).find? (fun e => e.1 = i) = none := by
  rw [List.find?_eq_none]
  intro x hx
  have := (List.mem_filter.mp hx).2
  simp at this ⊢
  exact this

theorem find?_key_map_modify {α : Type} (l : List (Nat × α)) (i j : Nat)
    (f : α → α) :
    ((l.map (fun e => if e.1 = i then (e.1, f e.2) else e)).find?
        (fun e => e.1 = j)) =
      if j = i then
        (l.find? (fun e => e.1 = j)).map (fun e => (e.1, f e.2))
      else l.find? (fun e => e.1 = j) := by
  rw [List.find?_map]
  have hp : ((fun (e : Nat × α) => decide (e.1 = j)) ∘
      (fun e => if e.1 = i then (e.1, f e.2) else e)) =
      (fun (e : Nat × α) => decide (e.1 = j)) := by
    funext e
    by_cases hei : e.1 = i <;> simp [Function.comp, hei]
  rw [hp]
  rcases hf : l.find? (fun e => decide (e.1 = j)) with _ | a
  · by_cases hji : j = i
    · subst hji; simp [hf]
    · simp [hji, hf]
  · have haj : a.1 = j := by
      have := List.find?_some hf
      simpa using this
    by_cases hji : j = i
    · subst hji
      simp [hf, haj]
    · have hax : ¬(a.1 = i) := by rw [haj]; exact hji
      simp [hji, hf, hax]

/-- `Pool.find?` after `deallocate` at a different pointer. -/
theorem Pool.find?_deallocate_ne {α : Type} (p : Pool α) (i j : Nat)
    (h : j ≠ i) : (p.deallocate i).find? j = p.find? j := by
  simp only [Pool.find?, Pool.deallocate]
  rw [find?_key_filter _ _ _ h]

/-- `Pool.find?` after `deallocate` at the same pointer. -/
theorem Pool.find?_deallocate_self {α : Type} (p : Pool α) (i : Nat) :
    (p.deallocate i).find? i = none := by
  simp only [Pool.find?, Pool.deallocate]
  rw [find?_key_filter_self]
  rfl

/-- `Pool.find?` after `modify` at a different pointer. -/
theorem Pool.find?_modify_ne {α : Type} (p : Pool α) (i j : Nat) (f : α → α)
    (h : j ≠ i) : (p.modify i f).find? j = p.find? j := by
  simp only [Pool.find?, Pool.modify]
  rw [find?_key_map_modify, if_neg h]

/-- `Pool.find?` after `modify` at the same pointer. -/
theorem Pool.find?_modify_self {α : Type} (p : Pool α) (i : Nat) (f : α → α) :
    (p.modify i f).find? i = (p.find? i).map f := by
  simp only [Pool.find?, Pool.modify]
  rw [find?_key_map_modify, if_pos rfl]
  cases p.entries.find? (fun e => e.1 = i) <;> rfl

/-- In a list whose images under `f` are duplicate-free, `find?` for the
value of a member returns exactly that member. -/
theorem find?_of_value_nodup {α β : Type} [DecidableEq β] (f : α → β)
    (l : List α) (hnd : (l.map f).Nodup) (a : α) (ha : a ∈ l) :
    l.find? (fun x => f x = f a) = some a := by
  induction l with
  | nil => cases ha
  | cons b t ih =>
    rw [List.map_cons, List.nodup_cons] at hnd
    rcases List.mem_cons.mp ha with rfl | hat
    · simp [List.find?_cons]
    · have hfb : ¬(f b = f a) := by
        intro hh
        exact hnd.1 (hh ▸ List.mem_map_of_mem f hat)
      simp [List.find?_cons, hfb, ih hnd.2 hat]

theorem find?_eq_some_of_unique {α : Type} (p : α → Bool) (l : List α) (a : α)
    (ha : a ∈ l) (hp : p a = true) (huniq : ∀ x ∈ l, p x = true → x = a) :
    l.find? p = some a := by
  induction l with
  | nil => cases ha
  | cons b t ih =>
    by_cases hb : p b = true
    · have hba : b = a := huniq b (List.mem_cons_self b t) hb
      subst hba
      simp [List.find?_cons, hb]
    · rcases List.mem_cons.mp ha with rfl | hat
      · exact absurd hp hb
      · have hb' : p b = false := by simpa using hb
        simp only [List.find?_cons, hb']
        exact ih hat (fun x hx hpx => huniq x (List.mem_cons_of_mem _ hx) hpx)

theorem listSwapRemove_eq {α : Type} (l : List α) (i : Nat)
    (hlen : 0 < l.length) :
    listSwapRemove l i = (l.set i (l.get ⟨l.length - 1, by omega⟩)).dropLast := by
  unfold listSwapRemove
  rw [List.getLast?_eq_getElem?, List.getElem?_eq_getElem (by omega : l.length - 1 < l.length)]
  rfl

theorem listSwapRemove_length {α : Type} (l : List α) (i : Nat)
    (hlen : 0 < l.length) :
    (listSwapRemove l i).length = l.length - 1 := by
  rw [listSwapRemove_eq l i hlen]
  simp

theorem mem_listSwapRemove {α : Type} (l : List α) (i : Nat)
    (hi : i < l.length) (hnd : l.Nodup) (x : α) :
    x ∈ listSwapRemove l i ↔ x ∈ l ∧ x ≠ l.get ⟨i, hi⟩ := by
  have hlen : 0 < l.length := by omega
  rw [listSwapRemove_eq l i hlen]
  constructor
  · intro hx
    rcases List.mem_iff_getElem.mp hx with ⟨j, hj, hval⟩
    have hj' : j < l.length - 1 := by simpa using hj
    rw [List.getElem_dropLast, List.getElem_set] at hval
    by_cases hij : i = j
    · subst hij
      subst hval
      simp only [if_pos rfl]
      refine ⟨List.getElem_mem _, ?_⟩
      intro hcontra
      have h2 := (hnd.getElem_inj_iff).mp hcontra
      simp at h2
      omega
    · rw [if_neg hij] at hval
      subst hval
      refine ⟨List.getElem_mem _, ?_⟩
      intro hcontra
      have h2 := (hnd.getElem_inj_iff).mp hcontra
      simp at h2
      omega
  · rintro ⟨hxl, hxne⟩
    rcases List.mem_iff_getElem.mp hxl with ⟨j, hj, hval⟩
    have hji : j ≠ i := by
      intro hh
      apply hxne
      rw [← hval]
      subst hh
      rfl
    rw [List.mem_iff_getElem]
    by_cases hjl : j < l.length - 1
    · refine ⟨j, ?_, ?_⟩
      · simp [List.length_dropLast]
        omega
      · rw [List.getElem_dropLast, List.getElem_set, if_neg (fun hh => hji hh.symm)]
        exact hval
    · have hjlast : j = l.length - 1 := by omega
      subst hjlast
      have hil : i < l.length - 1 := by omega
      refine ⟨i, ?_, ?_⟩
      · simp [List.length_dropLast]
        omega
      · rw [List.getElem_dropLast, List.getElem_set, if_pos rfl]
        exact hval

theorem find?_value_listSwapRemove_self {α β : Type} [DecidableEq β]
    (f : α → β) (l : List α) (i : Nat) (hi : i < l.length)
    (hnd : (l.map f).Nodup) :
    (listSwapRemove l i).find? (fun x => f x = f (l.get ⟨i, hi⟩)) = none := by
  rw [List.find?_eq_none]
  intro x hx hpx
  have hmem := (mem_listSwapRemove l i hi (hnd.of_map f) x).mp hx
  have hfx : f x = f (l.get ⟨i, hi⟩) := of_decide_eq_true hpx
  exact hmem.2
    (List.inj_on_of_nodup_map hnd hmem.1 (by exact List.getElem_mem hi) hfx)

theorem find?_value_listSwapRemove_ne {α β : Type} [DecidableEq β]
    (f : α → β) (l : List α) (i : Nat) (hi : i < l.length)
    (hnd : (l.map f).Nodup) (v : β) (hv : ¬v = f (l.get ⟨i, hi⟩)) :
    (listSwapRemove l i).find? (fun x => f x = v) =
      l.find? (fun x => f x = v) := by
  rcases hf : l.find? (fun x => f x = v) with _ | a
  · rw [List.find?_eq_none] at hf ⊢
    intro x hx
    exact hf x ((mem_listSwapRemove l i hi (hnd.of_map f) x).mp hx).1
  · have haMem := List.mem_of_find?_eq_some hf
    have hfa : f a = v := by
      have h := List.find?_some hf
      simpa using h
    apply find?_eq_some_of_unique
    · refine (mem_listSwapRemove l i hi (hnd.of_map f) a).mpr ⟨haMem, ?_⟩
      intro hh
      exact hv (by rw [← hfa, hh])
    · simpa using hfa
    · intro x hx hpx
      have hx1 := ((mem_listSwapRemove l i hi (hnd.of_map f) x).mp hx).1
      have hfx : f x = v := of_decide_eq_true hpx
      exact List.inj_on_of_nodup_map hnd hx1 haMem (by rw [hfx, hfa])

/-- The destruction loop of `dpi_scale_release`, characterized: given
duplicate-free pointers that all denote live `CacheBmp`s listed (only) in
their owning image's list, the loop succeeds, removes exactly those
entries from the bitmap pool, filters them out of every image's list, and
leaves the scale list untouched. -/
theorem releaseLoop_spec (ptrs : List Nat) (c : Cache)
    (hnd : ptrs.Nodup)
    (himg : ∀ ie ∈ c.imgs.entries, ie.2.bmps.Nodup)
    (hmem : ∀ p ∈ ptrs, ∃ e, c.bmps.find? p = some e ∧
      ∃ ci, c.imgs.find? e.img = some ci ∧ p ∈ ci.bmps)
    (hcross : ∀ p ∈ ptrs, ∀ ie ∈ c.imgs.entries, p ∈ ie.2.bmps →
      (c.bmps.find? p).map (fun b => b.img) = some ie.1) :
    ∃ c', releaseLoop c ptrs = some c' ∧
      c'.bmps.next = c.bmps.next ∧
      c'.bmps.entries = c.bmps.entries.filter (fun be => be.1 ∉ ptrs) ∧
      c'.imgs.next = c.imgs.next ∧
      c'.imgs.entries = c.imgs.entries.map
        (fun ie => (ie.1, CacheImg.mk (ie.2.bmps.filter (fun q => q ∉ ptrs)))) ∧
      c'.dpi_scales = c.dpi_scales := by
  induction ptrs generalizing c with
  | nil =>
    refine ⟨c, rfl, rfl, ?_, rfl, ?_, rfl⟩
    · rw [List.filter_eq_self.mpr]
      intro a _
      simp
    · have hfun : (fun (ie : Nat × CacheImg) =>
          (ie.1, CacheImg.mk (ie.2.bmps.filter (fun q => q ∉ ([] : List Nat))))) =
          fun ie => ie := by
        funext ie
        rw [List.filter_eq_self.mpr]
        intro a _
        simp
      rw [hfun]
      exact (List.map_id c.imgs.entries).symm
  | cons p ps ih =>
    obtain ⟨e, hfe, ci, hfci, hpci⟩ := hmem p (List.mem_cons_self _ _)
    have hq_ne_p : ∀ q ∈ ps, q ≠ p := by
      intro q hq hqp
      rw [List.nodup_cons] at hnd
      exact hnd.1 (hqp ▸ hq)
    have hrm : c.removeBmp p = some
        { c with
          imgs := c.imgs.modify e.img
            (fun x => { x with bmps := x.bmps.erase p })
          bmps := c.bmps.deallocate p } := by
      simp only [Cache.removeBmp, hfe, hfci]
    have hnd' : ps.Nodup := (List.nodup_cons.mp hnd).2
    -- Set up the intermediate cache.
    have hstep := ih
      { c with
        imgs := c.imgs.modify e.img (fun x => { x with bmps := x.bmps.erase p })
        bmps := c.bmps.deallocate p }
      hnd'
      (by
        intro ie1 hie1
        simp only [Pool.modify] at hie1
        rcases List.mem_map.mp hie1 with ⟨ie, hie, hg⟩
        by_cases hkey : ie.1 = e.img
        · rw [if_pos hkey] at hg
          subst hg
          exact (himg ie hie).erase p
        · rw [if_neg hkey] at hg
          subst hg
          exact himg ie hie)
      (by
        intro q hq
        obtain ⟨eq1, hfeq, ciq, hfciq, hqciq⟩ :=
          hmem q (List.mem_cons_of_mem _ hq)
        refine ⟨eq1, ?_, ?_⟩
        · show (c.bmps.deallocate p).find? q = some eq1
          rw [Pool.find?_deallocate_ne c.bmps p q (hq_ne_p q hq)]
          exact hfeq
        · by_cases hkey : eq1.img = e.img
          · refine ⟨{ ci with bmps := ci.bmps.erase p }, ?_, ?_⟩
            · show (c.imgs.modify e.img _).find? eq1.img = _
              rw [hkey, Pool.find?_modify_self, hfci]
              rfl
            · have hciq : ciq = ci := by
                rw [hkey] at hfciq
                rw [hfciq] at hfci
                exact Option.some.inj hfci
              exact (List.mem_erase_of_ne (hq_ne_p q hq)).mpr (hciq ▸ hqciq)
          · refine ⟨ciq, ?_, hqciq⟩
            show (c.imgs.modify e.img _).find? eq1.img = _
            rw [Pool.find?_modify_ne c.imgs e.img eq1.img _ hkey]
            exact hfciq)
      (by
        intro q hq ie1 hie1 hqie1
        simp only [Pool.modify] at hie1
        rcases List.mem_map.mp hie1 with ⟨ie, hie, hg⟩
        have hq_in_ie : q ∈ ie.2.bmps := by
          by_cases hkey : ie.1 = e.img
          · rw [if_pos hkey] at hg
            subst hg
            exact List.mem_of_mem_erase hqie1
          · rw [if_neg hkey] at hg
            subst hg
            exact hqie1
        have hkeyeq : ie1.1 = ie.1 := by
          by_cases hkey : ie.1 = e.img
          · rw [if_pos hkey] at hg
            subst hg
            rfl
          · rw [if_neg hkey] at hg
            subst hg
            rfl
        have := hcross q (List.mem_cons_of_mem _ hq) ie hie hq_in_ie
        show ((c.bmps.deallocate p).find? q).map _ = _
        rw [Pool.find?_deallocate_ne c.bmps p q (hq_ne_p q hq), hkeyeq]
        exact this)
    obtain ⟨c', hrun, hnext, hbmps, hinext, himgs, hscales⟩ := hstep
    refine ⟨c', ?_, hnext, ?_, hinext, ?_, hscales⟩
    · show releaseLoop c (p :: ps) = some c'
      unfold releaseLoop
      rw [hrm]
      exact hrun
    · rw [hbmps]
      show (c.bmps.deallocate p).entries.filter _ = _
      simp only [Pool.deallocate]
      rw [List.filter_filter]
      apply List.filter_congr
      intro be _
      by_cases hbp : be.1 = p
      · simp [hbp]
      · by_cases hbs : be.1 ∈ ps <;> simp [hbp, hbs]
    · rw [himgs]
      show ((c.imgs.modify e.img _).entries).map _ = _
      simp only [Pool.modify]
      rw [List.map_map]
      apply List.map_congr_left
      intro ie hie
      simp only [Function.comp]
      by_cases hkey : ie.1 = e.img
      · rw [if_pos hkey]
        refine Prod.ext rfl ?_
        show CacheImg.mk ((ie.2.bmps.erase p).filter (fun q => q ∉ ps)) = _
        have herase := (himg ie hie).erase_eq_filter p
        rw [herase, List.filter_filter]
        refine congrArg CacheImg.mk ?_
        apply List.filter_congr
        intro q _
        by_cases hqp : q = p
        · simp [hqp]
        · by_cases hqs : q ∈ ps <;> simp [hqp, hqs]
      · rw [if_neg hkey]
        refine Prod.ext rfl ?_
        refine congrArg CacheImg.mk ?_
        apply List.filter_congr
        intro q hqmem
        have hqp : ¬(q = p) := by
          intro hqp
          subst hqp
          have := hcross q (List.mem_cons_self _ _) ie hie hqmem
          rw [hfe] at this
          exact hkey (Option.some.inj this).symm
        by_cases hqs : q ∈ ps <;> simp [hqp, hqs]

theorem set_same_value {α : Type} (l : List α) (i : Nat) (a : α)
    (hi : i < l.length) (h : l.get ⟨i, hi⟩ = a) : l.set i a = l := by
  apply List.ext_getElem?
  intro n
  rw [List.getElem?_set]
  by_cases hin : i = n
  · subst hin
    rw [if_pos rfl, if_pos hi, List.getElem?_eq_getElem hi]
    exact congrArg some h.symm
  · rw [if_neg hin]

theorem mem_set_of_ne {α : Type} (l : List α) (i : Nat) (b x : α)
    (hi : i < l.length) (hx : x ∈ l) (hne : x ≠ l.get ⟨i, hi⟩) :
    x ∈ l.set i b := by
  rcases List.mem_iff_getElem.mp hx with ⟨j, hj, hval⟩
  have hji : i ≠ j := by
    intro hh
    subst hh
    exact hne (by rw [← hval]; rfl)
  rw [List.mem_iff_getElem]
  refine ⟨j, by simpa using hj, ?_⟩
  rw [List.getElem_set, if_neg hji]
  exact hval

theorem find?_value_set {α β : Type} [DecidableEq β] (f : α → β) (l : List α)
    (i : Nat) (b : α) (hi : i < l.length)
    (hfb : f b = f (l.get ⟨i, hi⟩)) (v : β) (hv : v ≠ f (l.get ⟨i, hi⟩)) :
    (l.set i b).find? (fun x => f x = v) = l.find? (fun x => f x = v) := by
  induction l generalizing i with
  | nil => rfl
  | cons a t ih =>
    cases i with
    | zero =>
      have hb : ¬(f b = v) := by
        rw [hfb]
        exact fun hh => hv hh.symm
      have ha : ¬(f a = v) := fun hh => hv (hh ▸ rfl)
      simp only [List.set]
      rw [List.find?_cons, List.find?_cons]
      simp [hb, ha]
    | succ n =>
      have hn : n < t.length := by simpa using hi
      simp only [List.set]
      rw [List.find?_cons, List.find?_cons]
      cases hpa : decide (f a = v)
      · exact ih n hn hfb hv
      · rfl

theorem findIdx?_of_find? {α : Type} (p : α → Bool) (l : List α) (a : α)
    (h : l.find? p = some a) :
    ∃ i, l.findIdx? p = some i ∧
      ∃ hi : i < l.length, l.get ⟨i, hi⟩ = a := by
  induction l with
  | nil => cases h
  | cons b t ih =>
    rw [List.find?_cons] at h
    cases hpb : p b
    · rw [hpb] at h
      obtain ⟨i, hfi, hi, hval⟩ := ih h
      refine ⟨i + 1, ?_, by simpa using hi, hval⟩
      rw [List.findIdx?_cons, hpb]
      simp only [Bool.false_eq_true, if_false, List.findIdx?_succ, hfi]
      rfl
    · rw [hpb] at h
      refine ⟨0, ?_, by simp, Option.some.inj h⟩
      rw [List.findIdx?_cons, hpb]
      simp

/-- The cache's entry for a scale value, if any. -/
def Cache.scaleEntry (c : Cache) (s : DpiScale) : Option CacheDpiScale :=
  c.dpi_scales.find? (fun e => e.dpi_scale = s)

/-- `dpi_scale_release` with a reference count of at least 2: the count is
decremented and every other part of the cache — the bitmap pool, the image
pool, and every other scale's entry — is untouched; well-formedness is
preserved. -/
theorem dpi_scale_release_decrement (c : Cache) (S : DpiScale)
    (e : CacheDpiScale) (hwf : c.WF) (hfind : c.scaleEntry S = some e)
    (hrc : 2 ≤ e.ref_count) :
    ∃ c', c.dpi_scale_release S = some c' ∧
      c'.bmps = c.bmps ∧ c'.imgs = c.imgs ∧
      c'.scaleEntry S = some { e with ref_count := e.ref_count - 1 } ∧
      (∀ S1, S1 ≠ S → c'.scaleEntry S1 = c.scaleEntry S1) ∧
      c'.WF := by
  obtain ⟨hnk1, hnk2, hnds, hsc4, him5, hbe6⟩ := hwf
  have hS : e.dpi_scale = S := by
    have := List.find?_some hfind
    simpa using this
  have hmemE : e ∈ c.dpi_scales := List.mem_of_find?_eq_some hfind
  obtain ⟨i, hidx, hi, hget⟩ := findIdx?_of_find? _ _ _ hfind
  have hget? : c.dpi_scales.get? i = some e := by
    rw [List.get?_eq_get hi, hget]
  have hpos : 0 < e.ref_count - 1 := by omega
  refine ⟨{ c with dpi_scales :=
      c.dpi_scales.set i { e with ref_count := e.ref_count - 1 } }, ?_, rfl, rfl,
    ?_, ?_, ?_⟩
  · simp only [Cache.dpi_scale_release, Cache.dpi_scale_find, hidx, hget?,
      if_pos hpos]
  · show List.find? _ _ = _
    have hmap : (c.dpi_scales.set i
        { e with ref_count := e.ref_count - 1 }).map
          (fun x => x.dpi_scale) = c.dpi_scales.map (fun x => x.dpi_scale) := by
      rw [List.map_set]
      apply set_same_value
      · simp only [List.get_eq_getElem, List.getElem_map]
        rw [show c.dpi_scales[i] = e from hget]
      · simp [hi]
    have hmem' : ({ e with ref_count := e.ref_count - 1 } : CacheDpiScale) ∈
        c.dpi_scales.set i { e with ref_count := e.ref_count - 1 } :=
      List.mem_set c.dpi_scales i hi _
    have := find?_of_value_nodup (fun x : CacheDpiScale => x.dpi_scale)
      (c.dpi_scales.set i { e with ref_count := e.ref_count - 1 })
      (by rw [hmap]; exact hnds) _ hmem'
    rw [show S = e.dpi_scale from hS.symm]
    exact this
  · intro S1 hS1
    show List.find? _ _ = List.find? _ _
    apply find?_value_set (fun x : CacheDpiScale => x.dpi_scale)
      c.dpi_scales i _ hi
    · rw [hget]
    · rw [hget]
      exact fun hh => hS1 (hh.trans hS)
  · refine ⟨hnk1, hnk2, ?_, ?_, him5, ?_⟩
    · show (List.map _ _).Nodup
      rw [List.map_set]
      have := set_same_value (c.dpi_scales.map (fun x => x.dpi_scale)) i
        e.dpi_scale (by simpa using hi)
        (by simp only [List.get_eq_getElem, List.getElem_map]
            rw [show c.dpi_scales[i] = e from hget])
      rw [this]
      exact hnds
    · intro sc hsc
      rcases List.mem_or_eq_of_mem_set hsc with hscl | hsce
      · exact hsc4 sc hscl
      · subst hsce
        obtain ⟨h1, h2, h3⟩ := hsc4 e hmemE
        exact ⟨hpos, h2, h3⟩
    · intro be hbe
      obtain ⟨h1, sc, hscmem, hscval, hscin⟩ := hbe6 be hbe
      refine ⟨h1, ?_⟩
      by_cases hsceq : sc = e
      · subst hsceq
        refine ⟨{ sc with ref_count := sc.ref_count - 1 },
          List.mem_set c.dpi_scales i hi _, hscval, hscin⟩
      · refine ⟨sc, ?_, hscval, hscin⟩
        apply mem_set_of_ne c.dpi_scales i _ sc hi hscmem
        rw [hget]
        exact hsceq

/-- With duplicate-free keys, looking up the key of a pool entry returns
that entry's value. -/
theorem Pool.find?_of_mem {α : Type} (p : Pool α)
    (hnd : (p.entries.map (fun e => e.1)).Nodup) (be : Nat × α)
    (hbe : be ∈ p.entries) : p.find? be.1 = some be.2 := by
  unfold Pool.find?
  rw [find?_of_value_nodup (fun e : Nat × α => e.1) p.entries hnd be hbe]
  rfl

/-- A successful pool lookup corresponds to a pool entry. -/
theorem Pool.find?_mem {α : Type} (p : Pool α) (i : Nat) (b : α)
    (h : p.find? i = some b) : (i, b) ∈ p.entries := by
  unfold Pool.find? at h
  obtain ⟨pe, hfe, hval⟩ := Option.map_eq_some'.mp h
  have hkey : pe.1 = i := by
    have := List.find?_some hfe
    simpa using this
  have hpe : pe = (i, b) := by
    rw [← hkey, ← hval]
  exact hpe ▸ List.mem_of_find?_eq_some hfe

/-- In a well-formed cache, a bitmap-pool entry is linked into scale `S`'s
list exactly when it is keyed by `S`. -/
theorem mem_scaleList_iff (c : Cache) (S : DpiScale) (e : CacheDpiScale)
    (hwf : c.WF) (hfind : c.scaleEntry S = some e)
    (be : Nat × CacheBmp) (hbe : be ∈ c.bmps.entries) :
    be.1 ∈ e.bmps ↔ be.2.dpi_scale = S := by
  obtain ⟨hnk1, hnk2, hnds, hsc4, him5, hbe6⟩ := hwf
  have hS : e.dpi_scale = S := by
    have := List.find?_some hfind
    simpa using this
  have hmemE : e ∈ c.dpi_scales := List.mem_of_find?_eq_some hfind
  constructor
  · intro hmem
    have h4 := (hsc4 e hmemE).2.2 be.1 hmem
    rw [Pool.find?_of_mem c.bmps hnk1 be hbe] at h4
    have : be.2.dpi_scale = e.dpi_scale := by simpa using h4
    rw [this, hS]
  · intro hval
    obtain ⟨_, sc, hscmem, hscval, hscin⟩ := hbe6 be hbe
    have hsce : sc = e :=
      List.inj_on_of_nodup_map hnds hscmem hmemE
        (by rw [hscval, hval, hS])
    exact hsce ▸ hscin

/-- `dpi_scale_release` with a reference count of 1 (the last reference):
every `CacheBmp` keyed by `S` is removed from the bitmap pool and filtered
out of its image's list, `S`'s `CacheDpiScale` entry disappears, and every
other scale's entry — including its bitmap list — is untouched. -/
theorem dpi_scale_release_last (c : Cache) (S : DpiScale) (e : CacheDpiScale)
    (hwf : c.WF) (hfind : c.scaleEntry S = some e) (hrc : e.ref_count = 1) :
    ∃ c', c.dpi_scale_release S = some c' ∧
      c'.bmps.entries = c.bmps.entries.filter
        (fun be => ¬be.2.dpi_scale = S) ∧
      c'.scaleEntry S = none ∧
      (∀ S1, S1 ≠ S → c'.scaleEntry S1 = c.scaleEntry S1) ∧
      c'.imgs.entries = c.imgs.entries.map (fun ie => (ie.1,
        CacheImg.mk (ie.2.bmps.filter
          (fun q => ¬(c.bmps.find? q).map (fun b => b.dpi_scale) = some S)))) := by
  have hw := hwf
  obtain ⟨hnk1, hnk2, hnds, hsc4, him5, hbe6⟩ := hwf
  have hS : e.dpi_scale = S := by
    have := List.find?_some hfind
    simpa using this
  have hmemE : e ∈ c.dpi_scales := List.mem_of_find?_eq_some hfind
  obtain ⟨i, hidx, hi, hget⟩ := findIdx?_of_find? _ _ _ hfind
  have hget? : c.dpi_scales.get? i = some e := by
    rw [List.get?_eq_get hi, hget]
  have hneg : ¬0 < e.ref_count - 1 := by omega
  obtain ⟨c1, hrun, hnext, hbmps1, hinext, himgs1, hscales1⟩ :=
    releaseLoop_spec e.bmps c
      (hsc4 e hmemE).2.1
      (fun ie hie => (him5 ie hie).1)
      (by
        intro p hp
        have h4 := (hsc4 e hmemE).2.2 p hp
        obtain ⟨b, hfb, hbval⟩ := Option.map_eq_some'.mp h4
        have hpair := Pool.find?_mem c.bmps p b hfb
        obtain ⟨himgpart, _⟩ := hbe6 (p, b) hpair
        rcases himgf : c.imgs.find? b.img with _ | ci
        · rw [himgf] at himgpart
          simp at himgpart
        · rw [himgf] at himgpart
          exact ⟨b, hfb, ci, himgf, by simpa using himgpart⟩)
      (fun p _ ie hie hpie => (him5 ie hie).2 p hpie)
  refine ⟨{ c1 with dpi_scales := listSwapRemove c1.dpi_scales i }, ?_, ?_, ?_,
    ?_, ?_⟩
  · simp only [Cache.dpi_scale_release, Cache.dpi_scale_find, hidx, hget?,
      if_neg hneg, hrun]
  · rw [hbmps1]
    apply List.filter_congr
    intro be hbe
    exact decide_eq_decide.mpr
      (not_congr (mem_scaleList_iff c S e hw hfind be hbe))
  · show List.find? _ _ = none
    rw [hscales1]
    rw [show S = (c.dpi_scales.get ⟨i, hi⟩).dpi_scale from by
      rw [hget]; exact hS.symm]
    exact find?_value_listSwapRemove_self (fun x : CacheDpiScale => x.dpi_scale)
      c.dpi_scales i hi hnds
  · intro S1 hS1
    show List.find? _ _ = List.find? _ _
    rw [hscales1]
    apply find?_value_listSwapRemove_ne (fun x : CacheDpiScale => x.dpi_scale)
      c.dpi_scales i hi hnds
    rw [hget]
    exact fun hh => hS1 (hh.trans hS)
  · rw [himgs1]
    apply List.map_congr_left
    intro ie hie
    refine Prod.ext rfl ?_
    refine congrArg CacheImg.mk ?_
    apply List.filter_congr
    intro q hq
    have h5 := (him5 ie hie).2 q hq
    obtain ⟨b, hfb, _⟩ := Option.map_eq_some'.mp h5
    have hpair := Pool.find?_mem c.bmps q b hfb
    have hiff := mem_scaleList_iff c S e hw hfind (q, b) hpair
    apply decide_eq_decide.mpr
    apply not_congr
    rw [hfb]
    simp only [Option.map_some']
    constructor
    · intro hmem
      exact congrArg some (hiff.mp hmem)
    · intro hsome
      exact hiff.mpr (Option.some.inj hsome)

/-- Register the same scale `n` times (`dpi_scale_add_ref` iterated). -/
def iterAddRef : Nat → Cache → DpiScale → Cache
  | 0, c, _ => c
  | n + 1, c, s => iterAddRef n (c.dpi_scale_add_ref s) s

/-- Release the same scale `n` times (`dpi_scale_release` iterated,
propagating the panic case). -/
def iterRelease : Nat → Cache → DpiScale → Option Cache
  | 0, c, _ => some c
  | n + 1, c, s =>
    match c.dpi_scale_release s with
    | none => none
    | some c1 => iterRelease n c1 s

theorem addRefList_append (l : List CacheDpiScale) (S : DpiScale) (k : Nat)
    (h : ∀ x ∈ l, x.dpi_scale ≠ S) :
    addRefList (l ++ [⟨S, k, []⟩]) S = l ++ [⟨S, k + 1, []⟩] := by
  induction l with
  | nil => simp [addRefList]
  | cons a t ih =>
    have ha : ¬(a.dpi_scale = S) := h a (List.mem_cons_self a t)
    simp only [List.cons_append, addRefList, if_neg ha]
    exact congrArg (List.cons a) (ih (fun x hx => h x (List.mem_cons_of_mem a hx)))

theorem addRefList_new (l : List CacheDpiScale) (S : DpiScale)
    (h : ∀ x ∈ l, x.dpi_scale ≠ S) :
    addRefList l S = l ++ [⟨S, 1, []⟩] := by
  induction l with
  | nil => rfl
  | cons a t ih =>
    have ha : ¬(a.dpi_scale = S) := h a (List.mem_cons_self a t)
    simp only [addRefList, if_neg ha, List.cons_append]
    exact congrArg (List.cons a) (ih (fun x hx => h x (List.mem_cons_of_mem a hx)))

theorem iterAddRef_aux (S : DpiScale) (l : List CacheDpiScale)
    (h : ∀ x ∈ l, x.dpi_scale ≠ S) :
    ∀ (k : Nat) (c : Cache) (m : Nat), c.dpi_scales = l ++ [⟨S, m, []⟩] →
      (iterAddRef k c S).imgs = c.imgs ∧ (iterAddRef k c S).bmps = c.bmps ∧
      (iterAddRef k c S).dpi_scales = l ++ [⟨S, m + k, []⟩]
  | 0, c, m, hc => ⟨rfl, rfl, by show c.dpi_scales = _; rw [hc, Nat.add_zero]⟩
  | k + 1, c, m, hc => by
    have hstep : (c.dpi_scale_add_ref S).dpi_scales = l ++ [⟨S, m + 1, []⟩] := by
      show addRefList c.dpi_scales S = _
      rw [hc]
      exact addRefList_append l S m h
    have hrec := iterAddRef_aux S l h k (c.dpi_scale_add_ref S) (m + 1) hstep
    refine ⟨hrec.1, hrec.2.1, ?_⟩
    show (iterAddRef k (c.dpi_scale_add_ref S) S).dpi_scales = _
    rw [hrec.2.2, Nat.add_assoc, Nat.add_comm 1 k]

/-- Registering a fresh scale `N ≥ 1` times creates exactly one
`CacheDpiScale` entry with reference count `N` and an empty bitmap list,
touching nothing else. -/
theorem iterAddRef_spec (c0 : Cache) (S : DpiScale) (N : Nat) (hN : 1 ≤ N)
    (h : ∀ x ∈ c0.dpi_scales, x.dpi_scale ≠ S) :
    (iterAddRef N c0 S).imgs = c0.imgs ∧ (iterAddRef N c0 S).bmps = c0.bmps ∧
    (iterAddRef N c0 S).dpi_scales = c0.dpi_scales ++ [⟨S, N, []⟩] := by
  obtain ⟨k, rfl⟩ : ∃ k, N = k + 1 := ⟨N - 1, by omega⟩
  have hstep : (c0.dpi_scale_add_ref S).dpi_scales =
      c0.dpi_scales ++ [⟨S, 1, []⟩] := by
    show addRefList c0.dpi_scales S = _
    exact addRefList_new c0.dpi_scales S h
  have hrec := iterAddRef_aux S c0.dpi_scales h k (c0.dpi_scale_add_ref S) 1 hstep
  refine ⟨hrec.1, hrec.2.1, ?_⟩
  show (iterAddRef k (c0.dpi_scale_add_ref S) S).dpi_scales = _
  rw [hrec.2.2, Nat.add_comm 1 k]

theorem iterRelease_add_one (n : Nat) (c : Cache) (S : DpiScale) :
    iterRelease (n + 1) c S =
      match iterRelease n c S with
      | none => none
      | some c1 => c1.dpi_scale_release S := by
  induction n generalizing c with
  | zero =>
    show (match c.dpi_scale_release S with
      | none => none
      | some c1 => some c1) = c.dpi_scale_release S
    cases c.dpi_scale_release S <;> rfl
  | succ n ih =>
    cases hr : c.dpi_scale_release S with
    | none =>
      have h1 : iterRelease (n + 1 + 1) c S = none := by
        show (match c.dpi_scale_release S with
          | none => none
          | some c1 => iterRelease (n + 1) c1 S) = none
        rw [hr]
      have h2 : iterRelease (n + 1) c S = none := by
        show (match c.dpi_scale_release S with
          | none => none
          | some c1 => iterRelease n c1 S) = none
        rw [hr]
      rw [h1, h2]
    | some c1 =>
      have h1 : iterRelease (n + 1 + 1) c S = iterRelease (n + 1) c1 S := by
        show (match c.dpi_scale_release S with
          | none => none
          | some c2 => iterRelease (n + 1) c2 S) = _
        rw [hr]
      have h2 : iterRelease (n + 1) c S = iterRelease n c1 S := by
        show (match c.dpi_scale_release S with
          | none => none
          | some c2 => iterRelease n c2 S) = _
        rw [hr]
      rw [h1, h2, ih c1]

/-- Iterating `dpi_scale_release` `k` times while the reference count
stays positive only decrements the count, keeping the bitmap pool, the
image pool and every other scale entry intact, and preserving
well-formedness. -/
theorem iterRelease_decrement (S : DpiScale) :
    ∀ (k : Nat) (c : Cache) (e : CacheDpiScale), c.WF →
      c.scaleEntry S = some e → k + 1 ≤ e.ref_count →
      ∃ c', iterRelease k c S = some c' ∧ c'.bmps = c.bmps ∧
        c'.imgs = c.imgs ∧
        c'.scaleEntry S = some { e with ref_count := e.ref_count - k } ∧
        (∀ S1, S1 ≠ S → c'.scaleEntry S1 = c.scaleEntry S1) ∧ c'.WF
  | 0, c, e, hwf, hfind, _ => by
    refine ⟨c, rfl, rfl, rfl, ?_, fun _ _ => rfl, hwf⟩
    rw [hfind]
    simp
  | k + 1, c, e, hwf, hfind, hrc => by
    obtain ⟨c1, hrel, hbmps, himgs, hfind1, hothers1, hwf1⟩ :=
      dpi_scale_release_decrement c S e hwf hfind (by omega)
    obtain ⟨c', hrun, hbmps', himgs', hfind', hothers', hwf'⟩ :=
      iterRelease_decrement S k c1 { e with ref_count := e.ref_count - 1 }
        hwf1 hfind1 (by simp; omega)
    refine ⟨c', ?_, by rw [hbmps', hbmps], by rw [himgs', himgs], ?_, ?_, hwf'⟩
    · show (match c.dpi_scale_release S with
        | none => none
        | some c1 => iterRelease k c1 S) = some c'
      rw [hrel]
      exact hrun
    · rw [hfind']
      refine congrArg some ?_
      have : e.ref_count - 1 - k = e.ref_count - (k + 1) := by omega
      simp [this]
    · intro S1 hS1
      rw [hothers' S1 hS1, hothers1 S1 hS1]

/-- C3: reference counting of DPI scales.
Part 1 (registration): registering a fresh scale `S` through
`dpi_scale_add_ref` `N ≥ 1` times creates a single `CacheDpiScale` entry
with reference count `N`, touching neither the bitmap pool nor the image
pool.  Part 2 (the first `N − 1` releases): as long as at least one
reference remains, releasing only decrements the count — every `CacheBmp`
(in particular every one keyed by `S`) and every image list is left
intact, and every other scale's entry is unchanged.  Part 3 (the `N`-th
release): releasing as many times as the reference count removes exactly
the `CacheBmp`s keyed by `S` (unlinking each from its image's list),
removes `S`'s `CacheDpiScale`, and leaves every `CacheBmp` keyed by any
other scale `S1 ≠ S` — and `S1`'s entry itself — untouched. -/
theorem C3_dpi_scale_refcount :
    (∀ (c0 : Cache) (S : DpiScale) (N : Nat), 1 ≤ N →
      (∀ x ∈ c0.dpi_scales, x.dpi_scale ≠ S) →
      (iterAddRef N c0 S).imgs = c0.imgs ∧
      (iterAddRef N c0 S).bmps = c0.bmps ∧
      (iterAddRef N c0 S).dpi_scales = c0.dpi_scales ++ [⟨S, N, []⟩]) ∧
    (∀ (c : Cache) (S : DpiScale) (e : CacheDpiScale) (k : Nat), c.WF →
      c.scaleEntry S = some e → k + 1 ≤ e.ref_count →
      ∃ c', iterRelease k c S = some c' ∧ c'.bmps = c.bmps ∧
        c'.imgs = c.imgs ∧
        c'.scaleEntry S = some { e with ref_count := e.ref_count - k } ∧
        (∀ S1, S1 ≠ S → c'.scaleEntry S1 = c.scaleEntry S1)) ∧
    (∀ (c : Cache) (S : DpiScale) (e : CacheDpiScale), c.WF →
      c.scaleEntry S = some e → 1 ≤ e.ref_count →
      ∃ c', iterRelease e.ref_count c S = some c' ∧
        c'.bmps.entries = c.bmps.entries.filter
          (fun be => ¬be.2.dpi_scale = S) ∧
        c'.scaleEntry S = none ∧
        (∀ S1, S1 ≠ S → c'.scaleEntry S1 = c.scaleEntry S1) ∧
        c'.imgs.entries = c.imgs.entries.map (fun ie => (ie.1,
          CacheImg.mk (ie.2.bmps.filter
            (fun q => ¬(c.bmps.find? q).map (fun b => b.dpi_scale) =
              some S))))) := by
  refine ⟨iterAddRef_spec, ?_, ?_⟩
  · intro c S e k hwf hfind hrc
    obtain ⟨c', h1, h2, h3, h4, h5, _⟩ :=
      iterRelease_decrement S k c e hwf hfind hrc
    exact ⟨c', h1, h2, h3, h4, h5⟩
  · intro c S e hwf hfind hrc
    obtain ⟨k, hk⟩ : ∃ k, e.ref_count = k + 1 := ⟨e.ref_count - 1, by omega⟩
    obtain ⟨c1, hit1, hbmps1, himgs1, hfind1, hothers1, hwf1⟩ :=
      iterRelease_decrement S k c e hwf hfind (by omega)
    have hrc1 : ({ e with ref_count := e.ref_count - k } :
        CacheDpiScale).ref_count = 1 := by
      show e.ref_count - k = 1
      omega
    obtain ⟨c2, hrel2, hbmps2, hnone2, hothers2, himgs2⟩ :=
      dpi_scale_release_last c1 S { e with ref_count := e.ref_count - k }
        hwf1 hfind1 hrc1
    refine ⟨c2, ?_, ?_, hnone2, ?_, ?_⟩
    · rw [hk, iterRelease_add_one, hit1]
      exact hrel2
    · rw [hbmps2, hbmps1]
    · intro S1 hS1
      rw [hothers2 S1 hS1, hothers1 S1 hS1]
    · rw [himgs2, himgs1, hbmps1]

instance Cache.WF.instDecidable (c : Cache) : Decidable c.WF := by
  unfold Cache.WF
  infer_instance

/-- DPI scale `1.0` (bit pattern modelled as `1`) for the cache examples. -/
def wDpi1 : DpiScale := ⟨1⟩

/-- DPI scale `2.0` (bit pattern modelled as `2`) for the cache examples. -/
def wDpi2 : DpiScale := ⟨2⟩

/-- The empty cache (`Cache::new`). -/
def cEmpty : Cache := ⟨⟨0, []⟩, ⟨0, []⟩, []⟩

/-- A concrete well-formed cache: one image with one bitmap keyed by each
of the two scales; `wDpi2` has reference count 2, `wDpi1` has 1. -/
def cW : Cache :=
  ⟨⟨1, [(0, ⟨[0, 1]⟩)]⟩,
   ⟨2, [(0, ⟨0, wDpi2, (10, 2)⟩), (1, ⟨0, wDpi1, (11, 1)⟩)]⟩,
   [⟨wDpi2, 2, [0]⟩, ⟨wDpi1, 1, [1]⟩]⟩

/-- The `wDpi2` entry of `cW`. -/
def wE2 : CacheDpiScale := ⟨wDpi2, 2, [0]⟩

/-- Witness for `C3_dpi_scale_refcount` at concrete inputs: register
`wDpi2` twice into the empty cache; then, on `cW` (where `wDpi2` holds
two references), one release keeps everything, and two releases purge
exactly the `wDpi2`-keyed bitmap. -/
theorem C3_witness :
    ((iterAddRef 2 cEmpty wDpi2).imgs = cEmpty.imgs ∧
      (iterAddRef 2 cEmpty wDpi2).bmps = cEmpty.bmps ∧
      (iterAddRef 2 cEmpty wDpi2).dpi_scales =
        cEmpty.dpi_scales ++ [⟨wDpi2, 2, []⟩]) ∧
    (∃ c', iterRelease 1 cW wDpi2 = some c' ∧ c'.bmps = cW.bmps ∧
      c'.imgs = cW.imgs ∧
      c'.scaleEntry wDpi2 = some { wE2 with ref_count := wE2.ref_count - 1 } ∧
      (∀ S1, S1 ≠ wDpi2 → c'.scaleEntry S1 = cW.scaleEntry S1)) ∧
    (∃ c', iterRelease wE2.ref_count cW wDpi2 = some c' ∧
      c'.bmps.entries = cW.bmps.entries.filter
        (fun be => ¬be.2.dpi_scale = wDpi2) ∧
      c'.scaleEntry wDpi2 = none ∧
      (∀ S1, S1 ≠ wDpi2 → c'.scaleEntry S1 = cW.scaleEntry S1) ∧
      c'.imgs.entries = cW.imgs.entries.map (fun ie => (ie.1,
        CacheImg.mk (ie.2.bmps.filter
          (fun q => ¬(cW.bmps.find? q).map (fun b => b.dpi_scale) =
            some wDpi2))))) :=
  ⟨C3_dpi_scale_refcount.1 cEmpty wDpi2 2 (by omega) (by simp [cEmpty]),
   C3_dpi_scale_refcount.2.1 cW wDpi2 wE2 1 (by decide) (by decide) (by decide),
   C3_dpi_scale_refcount.2.2 cW wDpi2 wE2 (by decide) (by decide) (by decide)⟩

/-- An abstract image (`trait Img`): its rasterization callback may
recursively request bitmaps for other images (`deps`, the nested images it
queries through the cache) before producing its own bitmap (`mk`). -/
structure ImgSpec where
  deps : List Nat
  rasterize : DpiScale → Bmp

/-- The collection of image handles in the program, by handle identity. -/
abbrev Env := Nat → ImgSpec

/-- The machine state of the `HImg::new_bmp` model: the global `CACHE`
cell, each handle's `ImgCacheRef::img_ptr` slot, the set of image handles
whose per-image `cache_ref` `RefCell` is currently mutably borrowed (i.e.
whose `new_bmp` is in progress), and whether the global cache `RefCell` is
currently mutably borrowed. -/
structure MState where
  cache : Cache
  imgPtrs : List (Nat × Nat)
  inProg : List Nat
  borrowed : Bool

/-- Panics of the `new_bmp` model: the `expect` on the per-image
`try_borrow_mut` (re-entry on the same image), a conflicting borrow of the
global cache `RefCell`, and exhaustion of the recursion fuel. -/
inductive RunErr where
  | reentrantSameImg
  | cacheBorrow
  | fuelOut
deriving DecidableEq, Repr

/-- Look up a handle's `ImgCacheRef::img_ptr`. -/
def lookupHandle (l : List (Nat × Nat)) (h : Nat) : Option Nat :=
  (l.find? (fun e => e.1 = h)).map (fun e => e.2)

mutual
/-- `HImg::new_bmp` (`img.rs` lines 58–101).  Steps, as in the source:
mutably borrow this handle's `cache_ref` (`expect`-panic if `new_bmp` is
already in progress on the same image); borrow the global cache;
`get_or_insert_with` the `CacheImg` slot; try `img_find_bmp` and return
the cached `Bmp` on a hit; otherwise *drop the cache borrow*, run the
image's rasterization callback (its nested images first, then `mk`),
re-borrow the cache, and insert the new bitmap only if the scale is
currently registered (`dpi_scale_find`).  Returns the bitmap, the final
state, and the (ghost) number of `Img::new_bmp` invocations. -/
def runImg (env : Env) : Nat → Nat → DpiScale → MState →
    Except RunErr (Bmp × MState × Nat)
  | 0, _, _, _ => .error .fuelOut
  | fuel + 1, h, scale, st =>
    if h ∈ st.inProg then .error .reentrantSameImg
    else if st.borrowed then .error .cacheBorrow
    else
      let gp : Nat × Cache × List (Nat × Nat) :=
        match lookupHandle st.imgPtrs h with
        | some p => (p, st.cache, st.imgPtrs)
        | none =>
          let r := st.cache.img_add
          (r.1, r.2, st.imgPtrs ++ [(h, r.1)])
      match gp.2.1.img_find_bmp gp.1 scale with
      | some bmp => .ok (bmp, ⟨gp.2.1, gp.2.2, st.inProg, false⟩, 0)
      | none =>
        match runDeps env fuel (env h).deps scale
            ⟨gp.2.1, gp.2.2, h :: st.inProg, false⟩ with
        | .error e2 => .error e2
        | .ok (st2, n) =>
          let bmp := (env h).rasterize scale
          if st2.borrowed then .error .cacheBorrow
          else
            match st2.cache.dpi_scale_find scale with
            | none => .ok (bmp, ⟨st2.cache, st2.imgPtrs, st.inProg, false⟩, n + 1)
            | some si =>
              .ok (bmp, ⟨st2.cache.img_add_bmp gp.1 si bmp, st2.imgPtrs,
                st.inProg, false⟩, n + 1)
  termination_by fuel h scale st => (fuel, 0)

/-- Run `new_bmp` for each nested image an `Img::new_bmp` implementation
queries, threading the state and summing the rasterization counts. -/
def runDeps (env : Env) : Nat → List Nat → DpiScale → MState →
    Except RunErr (MState × Nat)
  | _, [], _, st => .ok (st, 0)
  | fuel, d :: ds, scale, st =>
    match runImg env fuel d scale st with
    | .error e2 => .error e2
    | .ok (_, st1, n1) =>
      match runDeps env fuel ds scale st1 with
      | .error e2 => .error e2
      | .ok (st2, n2) => .ok (st2, n1 + n2)
  termination_by fuel ds scale st => (fuel, ds.length + 1)
end

/-- If no bitmap-pool entry is keyed by `S`, `img_find_bmp` misses for
every image. -/
theorem img_find_bmp_none_of_no_keyed (c : Cache) (p : Nat) (S : DpiScale)
    (hkeyed : ∀ be ∈ c.bmps.entries, ¬be.2.dpi_scale = S) :
    c.img_find_bmp p S = none := by
  unfold Cache.img_find_bmp
  rcases himgf : c.imgs.find? p with _ | ci
  · rfl
  · rw [Option.map_eq_none']
    rw [List.find?_eq_none]
    intro e0 he0 hpe0
    obtain ⟨q, hq, hfq⟩ := List.mem_filterMap.mp he0
    have hpair := Pool.find?_mem c.bmps q e0 hfq
    exact hkeyed (q, e0) hpair (by simpa using hpe0)

/-- In a well-formed cache, if `S` is not a currently registered scale
(`dpi_scale_find` misses) then no bitmap-pool entry is keyed by `S`. -/
theorem no_keyed_of_unregistered (c : Cache) (hwf : c.WF) (S : DpiScale)
    (hns : c.dpi_scale_find S = none) :
    ∀ be ∈ c.bmps.entries, ¬be.2.dpi_scale = S := by
  obtain ⟨_, _, _, _, _, hbe6⟩ := hwf
  intro be hbe hval
  obtain ⟨_, sc, hscmem, hscval, _⟩ := hbe6 be hbe
  have : ∀ x ∈ c.dpi_scales, ¬(decide (x.dpi_scale = S)) = true := by
    have h := List.findIdx?_eq_none_iff.mp hns
    intro x hx
    simp [h x hx]
  exact this sc hscmem (by simp [hscval, hval])

/-- C4: correctness of cache hits.  First, if a `CacheBmp` already exists
for `(I, S)` — the handle has its `CacheImg` slot and `img_find_bmp` hits
— then `HImg::new_bmp` returns exactly that cached bitmap, performs zero
`Img::new_bmp` invocations, and leaves the state untouched.  Second, in a
well-formed cache a hit at scale `S1` always comes from a pool entry keyed
by `S1` and owned by the queried image, so a lookup at `S1` never returns
a bitmap cached for a different scale `S2 ≠ S1`. -/
theorem C4_cache_hit (env : Env) :
    (∀ (fuel h : Nat) (scale : DpiScale) (st : MState) (p : Nat) (bmp : Bmp),
      st.borrowed = false → h ∉ st.inProg →
      lookupHandle st.imgPtrs h = some p →
      st.cache.img_find_bmp p scale = some bmp →
      runImg env (fuel + 1) h scale st = .ok (bmp, st, 0)) ∧
    (∀ (c : Cache) (p : Nat) (S1 : DpiScale) (b : Bmp), c.WF →
      c.img_find_bmp p S1 = some b →
      ∃ be ∈ c.bmps.entries, be.2.img = p ∧ be.2.dpi_scale = S1 ∧
        be.2.bmp = b) := by
  constructor
  · intro fuel h scale st p bmp hb hin hlook hfind
    rcases st with ⟨cache, ptrs, ip, bor⟩
    simp only at hb hlook hfind
    subst hb
    simp only [runImg, hlook, hfind]
    rw [if_neg hin, if_neg (by simp)]
  · intro c p S1 b hwf hfind
    obtain ⟨_, _, _, _, him5, _⟩ := hwf
    unfold Cache.img_find_bmp at hfind
    rcases himgf : c.imgs.find? p with _ | ci
    · rw [himgf] at hfind
      cases hfind
    · rw [himgf] at hfind
      obtain ⟨e0, hfe0, hval⟩ := Option.map_eq_some'.mp hfind
      have hscale : e0.dpi_scale = S1 := by
        have := List.find?_some hfe0
        simpa using this
      obtain ⟨q, hq, hfq⟩ := List.mem_filterMap.mp (List.mem_of_find?_eq_some hfe0)
      have hpair := Pool.find?_mem c.bmps q e0 hfq
      have hipair := Pool.find?_mem c.imgs p ci himgf
      have himg := (him5 (p, ci) hipair).2 q hq
      rw [hfq] at himg
      have he0img : e0.img = p := by simpa using himg
      exact ⟨(q, e0), hpair, he0img, hscale, hval⟩

/-- A sample image environment: no nested images; the bitmap identity
records the scale. -/
def wEnv : Env := fun _ => ⟨[], fun s => (100, s.bits)⟩

/-- Machine state for the C4 witness: cache `cW`, handle 5 already owning
`CacheImg` slot 0, nothing in progress. -/
def wSt : MState := ⟨cW, [(5, 0)], [], false⟩

/-- Witness for `C4_cache_hit`: on `cW`, handle 5's bitmap for `wDpi2` is
cached, and `new_bmp` returns it without rasterizing. -/
theorem C4_witness :
    runImg wEnv 1 5 wDpi2 wSt = .ok ((10, 2), wSt, 0) ∧
    (∃ be ∈ cW.bmps.entries, be.2.img = 0 ∧ be.2.dpi_scale = wDpi2 ∧
      be.2.bmp = (10, 2)) :=
  ⟨(C4_cache_hit wEnv).1 0 5 wDpi2 wSt 0 (10, 2) rfl (by simp [wSt]) rfl
      (by decide),
   (C4_cache_hit wEnv).2 cW 0 wDpi2 (10, 2) (by decide) (by decide)⟩

/-- An unregistered DPI scale (bit pattern `3`). -/
def wDpi3 : DpiScale := ⟨3⟩

/-- Machine state for the C5 witness. -/
def wStC5 : MState := ⟨cW, [], [], false⟩

/-- The nesting precondition for a `new_bmp` call: the handle is not
already rasterizing, and every nested image satisfies the same condition
with this handle added to the in-progress set — i.e. no rasterization
chain re-enters an image that is already in progress, within the given
depth budget. -/
def Admissible (env : Env) : Nat → List Nat → Nat → Prop
  | 0, _, _ => False
  | fuel + 1, ip, h =>
    h ∉ ip ∧ ∀ d ∈ (env h).deps, Admissible env fuel (h :: ip) d

theorem runDeps_admissible (env : Env) (fuel : Nat) (scale : DpiScale)
    (IH : ∀ (h : Nat) (st : MState), Admissible env fuel st.inProg h →
      st.borrowed = false →
      ∃ bmp st' n, runImg env fuel h scale st = .ok (bmp, st', n) ∧
        st'.inProg = st.inProg ∧ st'.borrowed = false) :
    ∀ (ds : List Nat) (st : MState), st.borrowed = false →
      (∀ d ∈ ds, Admissible env fuel st.inProg d) →
      ∃ st' n, runDeps env fuel ds scale st = .ok (st', n) ∧
        st'.inProg = st.inProg ∧ st'.borrowed = false
  | [], st, hb, _ => ⟨st, 0, by simp [runDeps], rfl, hb⟩
  | d :: ds, st, hb, hadm => by
    obtain ⟨bmp, st1, n1, hrun1, hip1, hb1⟩ :=
      IH d st (hadm d (List.mem_cons_self d ds)) hb
    obtain ⟨st2, n2, hrun2, hip2, hb2⟩ :=
      runDeps_admissible env fuel scale IH ds st1 hb1
        (by
          intro d2 hd2
          rw [hip1]
          exact hadm d2 (List.mem_cons_of_mem d hd2))
    refine ⟨st2, n1 + n2, ?_, by rw [hip2, hip1], hb2⟩
    simp only [runDeps, hrun1, hrun2]

theorem runImg_admissible (env : Env) (scale : DpiScale) :
    ∀ (fuel h : Nat) (st : MState), Admissible env fuel st.inProg h →
      st.borrowed = false →
      ∃ bmp st' n, runImg env fuel h scale st = .ok (bmp, st', n) ∧
        st'.inProg = st.inProg ∧ st'.borrowed = false := by
  intro fuel
  induction fuel with
  | zero =>
    intro h st hadm hb
    exact absurd hadm (by simp [Admissible])
  | succ fuel ih =>
    intro h st hadm hb
    simp only [Admissible] at hadm
    obtain ⟨hnotin, hdeps⟩ := hadm
    rcases st with ⟨cache, ptrs, ip, bor⟩
    simp only at hnotin hdeps hb ⊢
    subst hb
    cases hlook : lookupHandle ptrs h with
    | some p =>
      cases hfb : cache.img_find_bmp p scale with
      | some bmp =>
        refine ⟨bmp, ⟨cache, ptrs, ip, false⟩, 0, ?_, rfl, rfl⟩
        simp only [runImg, hlook, hfb]
        rw [if_neg hnotin, if_neg (by simp)]
      | none =>
        obtain ⟨st2, n, hrun2, hip2, hb2⟩ :=
          runDeps_admissible env fuel scale ih
            (env h).deps ⟨cache, ptrs, h :: ip, false⟩ rfl hdeps
        cases hsf : st2.cache.dpi_scale_find scale with
        | none =>
          refine ⟨(env h).rasterize scale,
            ⟨st2.cache, st2.imgPtrs, ip, false⟩, n + 1, ?_, rfl, rfl⟩
          simp only [runImg, hlook, hfb]
          rw [if_neg hnotin, if_neg (by simp)]
          rw [hrun2]
          simp only [hb2, Bool.false_eq_true, if_false, hsf]
        | some si =>
          refine ⟨(env h).rasterize scale,
            ⟨st2.cache.img_add_bmp p si ((env h).rasterize scale),
              st2.imgPtrs, ip, false⟩, n + 1, ?_, rfl, rfl⟩
          simp only [runImg, hlook, hfb]
          rw [if_neg hnotin, if_neg (by simp)]
          rw [hrun2]
          simp only [hb2, Bool.false_eq_true, if_false, hsf]
    | none =>
      cases hfb : (cache.img_add).2.img_find_bmp (cache.img_add).1 scale with
      | some bmp =>
        refine ⟨bmp, ⟨(cache.img_add).2, ptrs ++ [(h, (cache.img_add).1)],
          ip, false⟩, 0, ?_, rfl, rfl⟩
        simp only [runImg, hlook, hfb]
        rw [if_neg hnotin, if_neg (by simp)]
      | none =>
        obtain ⟨st2, n, hrun2, hip2, hb2⟩ :=
          runDeps_admissible env fuel scale ih
            (env h).deps ⟨(cache.img_add).2, ptrs ++ [(h, (cache.img_add).1)],
              h :: ip, false⟩ rfl hdeps
        cases hsf : st2.cache.dpi_scale_find scale with
        | none =>
          refine ⟨(env h).rasterize scale,
            ⟨st2.cache, st2.imgPtrs, ip, false⟩, n + 1, ?_, rfl, rfl⟩
          simp only [runImg, hlook, hfb]
          rw [if_neg hnotin, if_neg (by simp)]
          rw [hrun2]
          simp only [hb2, Bool.false_eq_true, if_false, hsf]
        | some si =>
          refine ⟨(env h).rasterize scale,
            ⟨st2.cache.img_add_bmp (cache.img_add).1 si
              ((env h).rasterize scale), st2.imgPtrs, ip, false⟩, n + 1,
            ?_, rfl, rfl⟩
          simp only [runImg, hlook, hfb]
          rw [if_neg hnotin, if_neg (by simp)]
          rw [hrun2]
          simp only [hb2, Bool.false_eq_true, if_false, hsf]

/-- C9: re-entrancy.  First, a `new_bmp` call on an image handle whose own
rasterization is already in progress fails with the fatal
"can't call `new_bmp` recursively on the same image" assertion (the
per-image `try_borrow_mut` expect) instead of recursing unboundedly.
Second, re-entrant `new_bmp` calls on *other* handles during
rasterization are permitted: under the no-self-re-entry precondition
`Admissible`, the whole call succeeds — in particular the global cache
`RefCell` is never double-borrowed, because the exclusive borrow is
dropped before `Img::new_bmp` is invoked. -/
theorem C9_reentrant_rasterization (env : Env) (scale : DpiScale) :
    (∀ (fuel h : Nat) (st : MState), h ∈ st.inProg →
      runImg env (fuel + 1) h scale st = .error .reentrantSameImg) ∧
    (∀ (fuel h : Nat) (st : MState), Admissible env fuel st.inProg h →
      st.borrowed = false →
      ∃ bmp st' n, runImg env fuel h scale st = .ok (bmp, st', n) ∧
        st'.inProg = st.inProg ∧ st'.borrowed = false) := by
  refine ⟨?_, runImg_admissible env scale⟩
  intro fuel h st hin
  simp only [runImg, if_pos hin]

/-- Environment where image 0's rasterization queries nested image 1. -/
def wEnvDep : Env :=
  fun i => if i = 0 then ⟨[1], fun s => (100, s.bits)⟩
    else ⟨[], fun s => (200, s.bits)⟩

/-- Machine state where image 7's rasterization is already in progress. -/
def wStBusy : MState := ⟨cW, [], [7], false⟩

/-- Idle machine state for the nested-rasterization witness. -/
def wStC9 : MState := ⟨cW, [], [], false⟩

/-- Witness for `C9_reentrant_rasterization`: calling `new_bmp` on image 7
while image 7 is already rasterizing hits the fatal assertion, while
image 0 — whose rasterization queries the distinct image 1 — completes. -/
theorem C9_witness :
    runImg wEnv 1 7 wDpi2 wStBusy = .error .reentrantSameImg ∧
    (∃ bmp st' n, runImg wEnvDep 2 0 wDpi2 wStC9 = .ok (bmp, st', n) ∧
      st'.inProg = wStC9.inProg ∧ st'.borrowed = false) :=
  ⟨(C9_reentrant_rasterization wEnv wDpi2).1 0 7 wStBusy (by simp [wStBusy]),
   (C9_reentrant_rasterization wEnvDep wDpi2).2 2 0 wStC9
     (by simp [Admissible, wEnvDep, wStC9]) rfl⟩

/-- Appending entries to the `img_ptr` table never disturbs an existing
handle's slot. -/
theorem lookupHandle_append_of_some (l l2 : List (Nat × Nat)) (k v : Nat)
    (h : lookupHandle l k = some v) : lookupHandle (l ++ l2) k = some v := by
  unfold lookupHandle at h ⊢
  obtain ⟨e, hfe, hval⟩ := Option.map_eq_some'.mp h
  rw [List.find?_append, hfe, Option.or_some, ← hval]
  rfl

theorem runDeps_unregistered_preserves (env : Env) (S : DpiScale) (fuel : Nat)
    (IH : ∀ (h : Nat) (st : MState) (bmp : Bmp) (st' : MState) (n : Nat),
      st.cache.dpi_scale_find S = none →
      runImg env fuel h S st = .ok (bmp, st', n) →
      st'.cache.bmps = st.cache.bmps ∧
      st'.cache.dpi_scales = st.cache.dpi_scales ∧
      (∀ k v, lookupHandle st.imgPtrs k = some v →
        lookupHandle st'.imgPtrs k = some v)) :
    ∀ (ds : List Nat) (st st' : MState) (n : Nat),
      st.cache.dpi_scale_find S = none →
      runDeps env fuel ds S st = .ok (st', n) →
      st'.cache.bmps = st.cache.bmps ∧
      st'.cache.dpi_scales = st.cache.dpi_scales ∧
      (∀ k v, lookupHandle st.imgPtrs k = some v →
        lookupHandle st'.imgPtrs k = some v)
  | [], st, st', n, _, hrun => by
    simp only [runDeps] at hrun
    obtain ⟨rfl, rfl⟩ := by simpa using hrun
    exact ⟨rfl, rfl, fun _ _ hv => hv⟩
  | d :: ds, st, st', n, hns, hrun => by
    simp only [runDeps] at hrun
    cases h1 : runImg env fuel d S st with
    | error e2 =>
      rw [h1] at hrun
      cases hrun
    | ok r =>
      rcases r with ⟨bmp1, st1, n1⟩
      rw [h1] at hrun
      dsimp only at hrun
      cases h2 : runDeps env fuel ds S st1 with
      | error e2 =>
        rw [h2] at hrun
        cases hrun
      | ok r2 =>
        rcases r2 with ⟨st2, n2⟩
        rw [h2] at hrun
        dsimp only at hrun
        obtain ⟨rfl, rfl⟩ := by simpa using hrun
        obtain ⟨e1, e2, e3⟩ := IH d st bmp1 st1 n1 hns h1
        have hns1 : st1.cache.dpi_scale_find S = none := by
          show st1.cache.dpi_scales.findIdx? _ = none
          rw [e2]
          exact hns
        obtain ⟨f1, f2, f3⟩ :=
          runDeps_unregistered_preserves env S fuel IH ds st1 st2 n2 hns1 h2
        exact ⟨f1.trans e1, f2.trans e2, fun k v hv => f3 k v (e3 k v hv)⟩

theorem runImg_unregistered_preserves (env : Env) (S : DpiScale) :
    ∀ (fuel h : Nat) (st : MState) (bmp : Bmp) (st' : MState) (n : Nat),
      st.cache.dpi_scale_find S = none →
      runImg env fuel h S st = .ok (bmp, st', n) →
      st'.cache.bmps = st.cache.bmps ∧
      st'.cache.dpi_scales = st.cache.dpi_scales ∧
      (∀ k v, lookupHandle st.imgPtrs k = some v →
        lookupHandle st'.imgPtrs k = some v) := by
  intro fuel
  induction fuel with
  | zero =>
    intro h st bmp st' n _ hrun
    simp [runImg] at hrun
  | succ fuel ih =>
    intro h st bmp st' n hns hrun
    rcases st with ⟨cache, ptrs, ip, bor⟩
    simp only at hns ⊢
    simp only [runImg] at hrun
    by_cases hin : h ∈ ip
    · rw [if_pos hin] at hrun
      cases hrun
    · rw [if_neg hin] at hrun
      by_cases hbor : bor = true
      · rw [if_pos hbor] at hrun
        cases hrun
      · rw [if_neg hbor] at hrun
        cases hlook : lookupHandle ptrs h with
        | some p =>
          rw [hlook] at hrun
          dsimp only at hrun
          cases hfb : cache.img_find_bmp p S with
          | some bmpc =>
            rw [hfb] at hrun
            dsimp only at hrun
            obtain ⟨rfl, rfl, rfl⟩ := by simpa using hrun
            exact ⟨rfl, rfl, fun _ _ hv => hv⟩
          | none =>
            rw [hfb] at hrun
            dsimp only at hrun
            cases h2 : runDeps env fuel (env h).deps S
                ⟨cache, ptrs, h :: ip, false⟩ with
            | error e2 =>
              rw [h2] at hrun
              cases hrun
            | ok r2 =>
              rcases r2 with ⟨st2, m⟩
              rw [h2] at hrun
              dsimp only at hrun
              obtain ⟨e1, e2, e3⟩ :=
                runDeps_unregistered_preserves env S fuel ih (env h).deps
                  ⟨cache, ptrs, h :: ip, false⟩ st2 m hns h2
              by_cases hb2 : st2.borrowed = true
              · rw [if_pos hb2] at hrun
                cases hrun
              · rw [if_neg hb2] at hrun
                have hsf : st2.cache.dpi_scale_find S = none := by
                  show st2.cache.dpi_scales.findIdx? _ = none
                  rw [e2]
                  exact hns
                rw [hsf] at hrun
                obtain ⟨rfl, rfl, rfl⟩ := by simpa using hrun
                exact ⟨e1, e2, e3⟩
        | none =>
          rw [hlook] at hrun
          dsimp only at hrun
          cases hfb : (cache.img_add).2.img_find_bmp (cache.img_add).1 S with
          | some bmpc =>
            rw [hfb] at hrun
            dsimp only at hrun
            obtain ⟨rfl, rfl, rfl⟩ := by simpa using hrun
            exact ⟨rfl, rfl, fun k v hv =>
              lookupHandle_append_of_some ptrs [(h, (cache.img_add).1)] k v hv⟩
          | none =>
            rw [hfb] at hrun
            dsimp only at hrun
            cases h2 : runDeps env fuel (env h).deps S
                ⟨(cache.img_add).2, ptrs ++ [(h, (cache.img_add).1)],
                  h :: ip, false⟩ with
            | error e2 =>
              rw [h2] at hrun
              cases hrun
            | ok r2 =>
              rcases r2 with ⟨st2, m⟩
              rw [h2] at hrun
              dsimp only at hrun
              obtain ⟨e1, e2, e3⟩ :=
                runDeps_unregistered_preserves env S fuel ih (env h).deps
                  ⟨(cache.img_add).2, ptrs ++ [(h, (cache.img_add).1)],
                    h :: ip, false⟩ st2 m hns h2
              by_cases hb2 : st2.borrowed = true
              · rw [if_pos hb2] at hrun
                cases hrun
              · rw [if_neg hb2] at hrun
                have hsf : st2.cache.dpi_scale_find S = none := by
                  show st2.cache.dpi_scales.findIdx? _ = none
                  rw [e2]
                  exact hns
                rw [hsf] at hrun
                obtain ⟨rfl, rfl, rfl⟩ := by simpa using hrun
                exact ⟨e1, e2, fun k v hv => e3 k v
                  (lookupHandle_append_of_some ptrs [(h, (cache.img_add).1)]
                    k v hv)⟩

/-- C5: lookups at an unregistered scale stay uncached, for *every* image
— including those whose rasterization callback recursively queries nested
images through the cache.  If `S` is not a currently registered live
scale, `HImg::new_bmp` runs the image's rasterization callback (the ghost
invocation count is `n + 1`: this image's own `Img::new_bmp` plus any
nested ones) and returns the freshly rasterized bitmap, but inserts no
`CacheBmp`: the bitmap pool and the scale list are exactly as before the
call, and a subsequent `img_find_bmp` for the handle's image at `S` still
misses.  `Admissible` is the no-self-re-entry/fuel precondition under
which a `new_bmp` call completes (claim C9). -/
theorem C5_unregistered_scale (env : Env) (fuel h : Nat) (S : DpiScale)
    (st : MState) (hwf : st.cache.WF) (hb : st.borrowed = false)
    (hadm : Admissible env fuel st.inProg h)
    (hns : st.cache.dpi_scale_find S = none) :
    ∃ c' ptrs' n p, runImg env fuel h S st =
        .ok ((env h).rasterize S, ⟨c', ptrs', st.inProg, false⟩, n + 1) ∧
      c'.bmps = st.cache.bmps ∧ c'.dpi_scales = st.cache.dpi_scales ∧
      lookupHandle ptrs' h = some p ∧ c'.img_find_bmp p S = none := by
  cases fuel with
  | zero => exact absurd hadm (by simp [Admissible])
  | succ fuel =>
    simp only [Admissible] at hadm
    obtain ⟨hnotin, hdeps⟩ := hadm
    rcases st with ⟨cache, ptrs, ip, bor⟩
    simp only at hwf hb hnotin hdeps hns ⊢
    subst hb
    have hkeyed := no_keyed_of_unregistered cache hwf S hns
    cases hlook : lookupHandle ptrs h with
    | some p =>
      have hmiss : cache.img_find_bmp p S = none :=
        img_find_bmp_none_of_no_keyed cache p S hkeyed
      obtain ⟨st2, m, hrun2, hip2, hb2⟩ :=
        runDeps_admissible env fuel S (runImg_admissible env S fuel)
          (env h).deps ⟨cache, ptrs, h :: ip, false⟩ rfl hdeps
      obtain ⟨e1, e2, e3⟩ :=
        runDeps_unregistered_preserves env S fuel
          (runImg_unregistered_preserves env S fuel) (env h).deps
          ⟨cache, ptrs, h :: ip, false⟩ st2 m hns hrun2
      have hsf : st2.cache.dpi_scale_find S = none := by
        show st2.cache.dpi_scales.findIdx? _ = none
        rw [e2]
        exact hns
      refine ⟨st2.cache, st2.imgPtrs, m, p, ?_, e1, e2, e3 h p hlook, ?_⟩
      · simp only [runImg, hlook, hmiss]
        rw [if_neg hnotin, if_neg (by simp)]
        rw [hrun2]
        simp only [hb2, Bool.false_eq_true, if_false, hsf]
      · exact img_find_bmp_none_of_no_keyed st2.cache p S
          (by rw [show st2.cache.bmps.entries = cache.bmps.entries from
            congrArg Pool.entries e1]; exact hkeyed)
    | none =>
      have hmiss : (cache.img_add).2.img_find_bmp (cache.img_add).1 S = none :=
        img_find_bmp_none_of_no_keyed _ _ _ hkeyed
      have hlook2 : lookupHandle (ptrs ++ [(h, (cache.img_add).1)]) h =
          some (cache.img_add).1 := by
        unfold lookupHandle at hlook ⊢
        rw [List.find?_append, Option.map_eq_none'.mp hlook]
        simp [List.find?_cons]
      obtain ⟨st2, m, hrun2, hip2, hb2⟩ :=
        runDeps_admissible env fuel S (runImg_admissible env S fuel)
          (env h).deps ⟨(cache.img_add).2, ptrs ++ [(h, (cache.img_add).1)],
            h :: ip, false⟩ rfl hdeps
      obtain ⟨e1, e2, e3⟩ :=
        runDeps_unregistered_preserves env S fuel
          (runImg_unregistered_preserves env S fuel) (env h).deps
          ⟨(cache.img_add).2, ptrs ++ [(h, (cache.img_add).1)],
            h :: ip, false⟩ st2 m hns hrun2
      have hsf : st2.cache.dpi_scale_find S = none := by
        show st2.cache.dpi_scales.findIdx? _ = none
        rw [e2]
        exact hns
      refine ⟨st2.cache, st2.imgPtrs, m, (cache.img_add).1, ?_, e1, e2,
        e3 h (cache.img_add).1 hlook2, ?_⟩
      · simp only [runImg, hlook, hmiss]
        rw [if_neg hnotin, if_neg (by simp)]
        rw [hrun2]
        simp only [hb2, Bool.false_eq_true, if_false, hsf]
      · exact img_find_bmp_none_of_no_keyed st2.cache (cache.img_add).1 S
          (by rw [show st2.cache.bmps.entries = cache.bmps.entries from
            congrArg Pool.entries e1]; exact hkeyed)

/-- Witness for `C5_unregistered_scale` with a genuinely nested image:
image 0's rasterization queries image 1 through the cache, at the
unregistered scale `wDpi3`, on the well-formed cache `cW`. -/
theorem C5_witness :
    ∃ c' ptrs' n p, runImg wEnvDep 2 0 wDpi3 wStC5 =
        .ok ((wEnvDep 0).rasterize wDpi3, ⟨c', ptrs', wStC5.inProg, false⟩,
          n + 1) ∧
      c'.bmps = wStC5.cache.bmps ∧ c'.dpi_scales = wStC5.cache.dpi_scales ∧
      lookupHandle ptrs' 0 = some p ∧ c'.img_find_bmp p wDpi3 = none :=
  C5_unregistered_scale wEnvDep 2 0 wDpi3 wStC5 (by decide) rfl
    (by simp [Admissible, wEnvDep, wStC5]) (by decide)
